import Mathlib

/-!
Shallow embedding of the `caba-clima` weather service (two source variants:
`src/app.js` and the unnamed variant `src/unnamed/part_000`).

Shared pipeline pieces (identical in both files) live at the top level of
`CabaClima`; the pieces that differ between the two variants live in the
namespaces `App` (for `src/app.js`) and `P0` (for `src/unnamed/part_000`).
Numbers flowing through the aggregation pipeline are modelled as `Rat`
(every value involved is an exact decimal of small magnitude, for which
JavaScript float arithmetic coincides with exact arithmetic on the
operations used: comparisons, min, max, and the `x + 0.5` of `Math.round`).
The luxon timestamp parser and the upstream HTTP fetch are external
collaborators: parsing is a parameter `fromISO` (any real parse yields a
local hour in `[0,24)`, enforced by the `Fin 24` field of `LocalDT`), and
a completed fetch is a `RefreshOutcome` value.
-/

namespace CabaClima

/-- A JavaScript value as it occurs in the parsed JSON `hourly` arrays.
`num q` is a finite number; `jsNull` is JSON `null` (note `Number(null) = 0`);
`nonFinite` stands for every value whose `Number(-)` conversion is `NaN` or
infinite: `undefined` (as produced by an out-of-range array index), `NaN`,
`Infinity`, non-numeric strings, objects. -/
inductive JsVal where
  | num (q : Rat)
  | jsNull
  | nonFinite
deriving DecidableEq

/-- `Number(v)` combined with the `Number.isFinite` test used by every
aggregator: the finite numeric value of `v`, or `none` when `v` is excluded.
`Number(null) = 0` is finite. -/
def toFinite : JsVal → Option Rat
  | .num q => some q
  | .jsNull => some 0
  | .nonFinite => none

/-- Exact rational addition, written as an explicit fraction build (it
agrees with library addition, but stays reducible for evaluation). -/
def ratAdd (a b : Rat) : Rat :=
  Rat.divInt (a.num * (b.den : Int) + b.num * (a.den : Int)) ((a.den : Int) * (b.den : Int))

/-- Exact rational division, written as an explicit fraction build. -/
def ratDiv (a b : Rat) : Rat :=
  Rat.divInt (a.num * (b.den : Int)) ((a.den : Int) * b.num)

/-- JavaScript `Math.round`: round half toward positive infinity,
`Math.round(x) = floor(x + 0.5)`. -/
def jsRound (q : Rat) : Int := (ratAdd q (Rat.divInt 1 2)).floor

/-- JavaScript `\s` whitespace, restricted to the code points that occur in
this program's strings (space, tab, line feed, vertical tab, form feed,
carriage return). -/
def isWs (c : Char) : Bool :=
  c == ' ' || c == '\t' || c == '\n' || c == Char.ofNat 11 || c == Char.ofNat 12 || c == '\r'

/-- `s.replace(/\s+/g, ' ')`: every maximal run of whitespace becomes one
space.  The flag records whether the previous character was whitespace
(whether we are inside a run that has already emitted its space). -/
def collapseWs (prevWs : Bool) : List Char → List Char
  | [] => []
  | c :: rest =>
    if isWs c then
      if prevWs then collapseWs true rest else ' ' :: collapseWs true rest
    else c :: collapseWs false rest

/-- Left trim: drop leading whitespace. -/
def trimL (l : List Char) : List Char := l.dropWhile isWs

/-- Right trim: drop trailing whitespace. -/
def trimR (l : List Char) : List Char := (l.reverse.dropWhile isWs).reverse

/-- `String.prototype.trim`. -/
def trimWs (l : List Char) : List Char := trimR (trimL l)

/-- The body of `safeText` on the character list: collapse whitespace runs,
trim, and when longer than 240 characters truncate with `slice(0, 240)` and
trim again. -/
def sanitize (l : List Char) : List Char :=
  let s := trimWs (collapseWs false l)
  if 240 < s.length then trimWs (s.take 240) else s

/-- `safeText(input)` — `String(input ?? '')`, collapse each `\s+` run to a
single space, trim, truncate to 240 characters.  Identical in both source
files. -/
def safeText (input : Option String) : String :=
  ⟨sanitize (input.getD "").data⟩

/-- The relation "not both whitespace" between adjacent characters; a
sanitized string is a `List.Chain'` of this relation. -/
def noWsPair (a b : Char) : Prop := ¬(isWs a = true ∧ isWs b = true)

instance : DecidableRel noWsPair := fun a b =>
  inferInstanceAs (Decidable ¬(isWs a = true ∧ isWs b = true))

/-- `weatherCodeToSpanish(code)`.  The argument is the result of
`pickMostFrequent`: a finite number or `null`.  `Number(null) = 0`, so a
`null` code resolves exactly like code `0` (and the `Number.isNaN` guard
never fires on these inputs).  Identical in both source files. -/
def weatherCodeToSpanish (code : Option Rat) : String :=
  let c : Rat := match code with | some q => q | none => 0
  if c = 0 then "cielo despejado"
  else if c = 1 then "mayormente despejado"
  else if c = 2 then "parcialmente nublado"
  else if c = 3 then "nublado"
  else if c = 45 ∨ c = 48 then "niebla"
  else if c = 51 ∨ c = 53 ∨ c = 55 then "llovizna"
  else if c = 56 ∨ c = 57 then "llovizna helada"
  else if c = 61 ∨ c = 63 ∨ c = 65 then "lluvia"
  else if c = 66 ∨ c = 67 then "lluvia helada"
  else if c = 71 ∨ c = 73 ∨ c = 75 then "nieve"
  else if c = 77 then "granizo"
  else if c = 80 ∨ c = 81 ∨ c = 82 then "chaparrones"
  else if c = 85 ∨ c = 86 then "chaparrones de nieve"
  else if c = 95 then "tormenta"
  else if c = 96 ∨ c = 99 then "tormenta con granizo"
  else ""

/-- One `freq.set(k, (freq.get(k) || 0) + 1)` step on the insertion-ordered
map, represented as an association list.  An existing key keeps its position
(JS `Map` iteration order); a new key is appended.  Distinct finite numbers
have distinct `String(n)` images, so keying by the number itself is faithful
to the `String(n)` keys of the source. -/
def bump (freq : List (Rat × Nat)) (k : Rat) : List (Rat × Nat) :=
  if freq.any (fun e => e.1 == k) then
    freq.map (fun e => if e.1 = k then (e.1, e.2 + 1) else e)
  else freq ++ [(k, 1)]

/-- The first loop of `pickMostFrequent`: build the frequency map over the
finite values, in insertion order. -/
def buildFreq (arr : List JsVal) : List (Rat × Nat) :=
  arr.foldl (fun f v => match toFinite v with | some n => bump f n | none => f) []

/-- The `best / bestCount` scan of `pickMostFrequent`: `bestCount` starts at
`-1`, and only a strictly greater count replaces the current best — so the
first key attaining the maximal count wins. -/
def pickBest (freq : List (Rat × Nat)) : Option (Rat × Nat) :=
  freq.foldl (fun best e =>
    match best with
    | none => some e
    | some b => if b.2 < e.2 then some e else some b) none

/-- `pickMostFrequent(arr)`: most frequent finite value, ties broken by
first-seen order; `null` when no finite value exists.  Identical in both
source files. -/
def pickMostFrequent (arr : List JsVal) : Option Rat :=
  (pickBest (buildFreq arr)).map (fun e => e.1)

/-- `minMaxRounded(arr)`: `null` when no finite value remains, otherwise the
rounded minimum and maximum.  Identical in both source files. -/
def minMaxRounded (arr : List JsVal) : Option (Int × Int) :=
  match arr.filterMap toFinite with
  | [] => none
  | n :: rest => some (jsRound (rest.foldl min n), jsRound (rest.foldl max n))

/-- `avgRounded(arr)` (variant file only): `null` when no finite value
remains, otherwise the rounded arithmetic mean. -/
def avgRounded (arr : List JsVal) : Option Int :=
  match arr.filterMap toFinite with
  | [] => none
  | n :: rest =>
    some (jsRound (ratDiv ((n :: rest).foldl ratAdd 0)
      (Rat.divInt ((n :: rest).length : Int) 1)))

/-- One fixed day-part window over local clock hours, half-open. -/
structure DayPart where
  key : String
  «from» : Nat
  «to» : Nat
deriving DecidableEq

/-- `dayParts()` — identical in both source files. -/
def dayParts : List DayPart :=
  [⟨"madrugada", 0, 6⟩, ⟨"mañana", 6, 12⟩, ⟨"tarde", 12, 18⟩, ⟨"noche", 18, 24⟩]

/-- `currentPartKey(dt)` on the local hour (a real datetime's hour is always
in `[0,24)`, so the `h >= 0` guard of the source is satisfied by the type). -/
def currentPartKey (h : Fin 24) : String :=
  if h.val < 6 then "madrugada"
  else if h.val < 12 then "mañana"
  else if h.val < 18 then "tarde"
  else "noche"

/-- A successfully parsed local timestamp, as produced by the external
luxon `DateTime.fromISO(-, { zone: 'America/Argentina/Buenos_Aires' })`:
the local calendar date (`toISODate()`) and the local hour, which for any
valid datetime lies in `[0,24)`. -/
structure LocalDT where
  dateISO : String
  hour : Fin 24
deriving DecidableEq

/-- The indices collected into the bucket of part `p` for `targetDateISO`:
the inner loop of `buildSegmentsForDay` (identical in both files), which
skips records whose timestamp does not parse, keeps only records on the
target local date, and tests `h >= p.from && h < p.to`. -/
def collectIdx (fromISO : String → Option LocalDT) (targetDateISO : String)
    (hourlyTime : List String) (p : DayPart) : List Nat :=
  (List.range hourlyTime.length).filter (fun i =>
    match fromISO (hourlyTime.getD i "") with
    | none => false
    | some dt =>
      decide (dt.dateISO = targetDateISO ∧ p.«from» ≤ dt.hour.val ∧ dt.hour.val < p.«to»))

/-- The code values pushed for part `p` (`hourlyCode[i]`; an out-of-range
index yields `undefined`, i.e. `nonFinite`). -/
def bucketVals (fromISO : String → Option LocalDT) (targetDateISO : String)
    (hourlyTime : List String) (arr : List JsVal) (p : DayPart) : List JsVal :=
  (collectIdx fromISO targetDateISO hourlyTime p).map (fun i => arr.getD i .nonFinite)

end CabaClima

namespace CabaClima.App

/-- One aggregated (day, part) segment of `src/app.js`. -/
structure Segment where
  key : String
  desc : String
  mm : Option (Int × Int)
deriving DecidableEq

/-- `buildSegmentsForDay` of `src/app.js`: one pass over the four parts; a
part is skipped exactly when its description is empty and its temperature
range is `null` (`if (!desc && !mm) continue`). -/
def buildSegmentsForDay (fromISO : String → Option LocalDT) (targetDateISO : String)
    (hourlyTime : List String) (hourlyCode hourlyTemp : List JsVal) : List Segment :=
  dayParts.filterMap (fun p =>
    let codes := bucketVals fromISO targetDateISO hourlyTime hourlyCode p
    let temps := bucketVals fromISO targetDateISO hourlyTime hourlyTemp p
    let desc := weatherCodeToSpanish (pickMostFrequent codes)
    let mm := minMaxRounded temps
    if desc = "" ∧ mm = none then none
    else some ⟨p.key, desc, mm⟩)

/-- `parts.find((p) => p.key === k)?.from ?? 0`. -/
def partFromOfKey (k : String) : Nat :=
  match dayParts.find? (fun p => p.key == k) with
  | some p => p.«from»
  | none => 0

/-- The day-0 filter inside `refreshFromOpenMeteo`: on the current day keep
only segments whose part starts no earlier than the current part; later days
are passed through unchanged. -/
def filterForDay (d : Nat) (nowKey : String) (segs : List Segment) : List Segment :=
  if d = 0 then segs.filter (fun s => partFromOfKey nowKey ≤ partFromOfKey s.key)
  else segs

/-- `const isActual = d === 0 && seg.key === nowKey`. -/
def isActual (d : Nat) (segKey nowKey : String) : Bool :=
  d == 0 && segKey == nowKey

/-- `segmentMomentLabel(segKey, isActual)`. -/
def segmentMomentLabel (segKey : String) (actual : Bool) : String :=
  let needsLa := segKey == "madrugada" || segKey == "tarde" || segKey == "noche"
  let base := if needsLa then "en la " ++ segKey else segKey
  if actual then base ++ " actual" else base

/-- `dayHeaderForOffset` — the weekday name comes from the external luxon
locale formatting, modelled as the parameter `wdName`. -/
def dayHeaderForOffset (wdName : Nat → String) (offsetDays : Nat) : String :=
  if offsetDays = 0 then "Hoy " ++ wdName 0 ++ "." else "El " ++ wdName offsetDays ++ "."

/-- One rendered segment line:
`"<moment label>: [<desc>.] [Entre <min> y <max> grados.]"`. -/
def segmentLine (d : Nat) (nowKey : String) (seg : Segment) : String :=
  let label := segmentMomentLabel seg.key (isActual d seg.key nowKey)
  let bits := [label ++ ":"]
    ++ (if seg.desc ≠ "" then [safeText (some seg.desc) ++ "."] else [])
    ++ (match seg.mm with
        | some mm => ["Entre " ++ toString mm.1 ++ " y " ++ toString mm.2 ++ " grados."]
        | none => [])
  String.intercalate " " bits

/-- The block of lines one day contributes in `refreshFromOpenMeteo`:
nothing when no segment survives the filter, otherwise a header line
followed by one line per retained segment. -/
def dayBlock (fromISO : String → Option LocalDT) (wdName : Nat → String)
    (dateISO : String) (nowKey : String) (hourlyTime : List String)
    (hourlyCode hourlyTemp : List JsVal) (d : Nat) : List String :=
  let filtered :=
    filterForDay d nowKey (buildSegmentsForDay fromISO dateISO hourlyTime hourlyCode hourlyTemp)
  if filtered.isEmpty then []
  else dayHeaderForOffset wdName d :: filtered.map (segmentLine d nowKey)

/-- The full list of spoken lines assembled by `refreshFromOpenMeteo` of
`src/app.js`: the location line, the three day blocks, then always the
`Actualizado` line carrying the wall-clock `HH:mm` (`hhmm`). -/
def refreshLines (fromISO : String → Option LocalDT) (wdName : Nat → String)
    (dates : Nat → String) (nowHour : Fin 24) (hhmm : String)
    (hourlyTime : List String) (hourlyCode hourlyTemp : List JsVal) : List String :=
  let nowKey := currentPartKey nowHour
  "Capital Federal." ::
    (((List.range 3).map (fun d =>
        dayBlock fromISO wdName (dates d) nowKey hourlyTime hourlyCode hourlyTemp d)).flatten
      ++ ["Actualizado " ++ hhmm ++ "."])

/-- `buildXmlFromSayLines(lines)`: one `Say` element per line, each line
sanitized with `safeText`, empty lines dropped.  Modelled as the list of
`Say` texts (the XML wrapper is the external `xmlbuilder`). -/
def buildXmlFromSayLines (lines : List String) : List String :=
  lines.filterMap (fun line =>
    let t := safeText (some line)
    if t = "" then none else some t)

/-- The rendered payload of a successful refresh. -/
def refreshPayload (fromISO : String → Option LocalDT) (wdName : Nat → String)
    (dates : Nat → String) (nowHour : Fin 24) (hhmm : String)
    (hourlyTime : List String) (hourlyCode hourlyTemp : List JsVal) : List String :=
  buildXmlFromSayLines
    (refreshLines fromISO wdName dates nowHour hhmm hourlyTime hourlyCode hourlyTemp)

/-- The single shared cache record `latestWeather` of `src/app.js`. -/
structure CacheEntry where
  xml : Option (List String)
  timestamp : Option Int
  isDegraded : Bool
deriving DecidableEq

/-- `let latestWeather = { xml: null, timestamp: null, isDegraded: false }`. -/
def initialWeather : CacheEntry := ⟨none, none, false⟩

/-- A usable entry: a rendered payload is present and it is not degraded
(the guard of `ensureDegradedXmlIfEmpty`). -/
def usable (st : CacheEntry) : Prop := st.xml.isSome = true ∧ st.isDegraded = false

instance : DecidablePred usable := fun st => by
  unfold usable; infer_instance

/-- The three degraded lines (before sanitization). -/
def degradedLines (hhmm : String) : List String :=
  ["Capital Federal.", "Clima no disponible por el momento."]
    ++ ["Actualizado " ++ hhmm ++ "."]

/-- `ensureDegradedXmlIfEmpty()` of `src/app.js`: keep a usable
(non-degraded) entry unchanged; otherwise store a freshly synthesized
degraded entry stamped with the current wall-clock time. -/
def ensureDegradedXmlIfEmpty (hhmm : String) (now : Int) (st : CacheEntry) : CacheEntry :=
  if usable st then st
  else ⟨some (buildXmlFromSayLines (degradedLines hhmm)), some now, true⟩

/-- The outcome of one completed upstream refresh attempt: a successful one
carries the new payload and its `Date.now()` stamp, a failed one carries
nothing (network error, timeout, non-2xx, ...). -/
inductive RefreshOutcome where
  | ok (payload : List String) (ts : Int)
  | err
deriving DecidableEq

def CACHE_MAX_MINUTES : Int := 65

/-- `shouldRefresh` of the `GET /weather/voice` handler:
`!latestWeather?.xml || ageMin === null || ageMin > CACHE_MAX_MINUTES`, with
`ageMin = (Date.now() - timestamp) / 60000` when the stored timestamp is
truthy (non-zero).  For the integer millisecond differences involved the
float comparison `ageMin > 65` coincides with the exact comparison
`now - t > 65 * 60000`, which is how it is modelled. -/
def shouldRefresh (st : CacheEntry) (now : Int) : Bool :=
  match st.xml, st.timestamp with
  | none, _ => true
  | some _, none => true
  | some _, some t =>
    if t = 0 then true else decide (CACHE_MAX_MINUTES * 60000 < now - t)

/-- Applying one completed refresh attempt on a failure-swallowing path
(read handler, cron tick, startup): success installs the fresh entry,
failure is caught and handled with `ensureDegradedXmlIfEmpty`. -/
def applyOutcome (hhmm : String) (now : Int) (st : CacheEntry) :
    RefreshOutcome → CacheEntry
  | .ok p ts => ⟨some p, some ts, false⟩
  | .err => ensureDegradedXmlIfEmpty hhmm now st

/-- The `GET /weather/voice` handler: refresh when the entry is missing or
stale (swallowing any failure), then respond with the current
`latestWeather.xml` whatever happened.  `o` is the outcome the triggered
refresh attempt would complete with. -/
def readVoice (hhmm : String) (now : Int) (st : CacheEntry) (o : RefreshOutcome) :
    CacheEntry × Option (List String) :=
  let st' := if shouldRefresh st now then applyOutcome hhmm now st o else st
  (st', st'.xml)

/-- The response of the forced-refresh route. -/
inductive UpdateResponse where
  | okMsg
  | errStatus502 (msg : String)
deriving DecidableEq

/-- The `POST /weather/update` handler: on success report ok; on failure
synthesize the degraded fallback (if no usable entry exists) and report
status 502 with the original error message — the failure is surfaced, not
swallowed. -/
def postUpdate (hhmm : String) (now : Int) (st : CacheEntry) (o : RefreshOutcome)
    (errMsg : String) : CacheEntry × UpdateResponse :=
  match o with
  | .ok p ts => (⟨some p, some ts, false⟩, .okMsg)
  | .err => (ensureDegradedXmlIfEmpty hhmm now st, .errStatus502 errMsg)

end CabaClima.App

namespace CabaClima.P0

/-- One aggregated (day, part) segment of the unnamed variant: it also
carries the rounded humidity average. -/
structure Segment where
  key : String
  desc : String
  mm : Option (Int × Int)
  hum : Option Int
deriving DecidableEq

/-- `buildSegmentsForDay` of the unnamed variant: also aggregates humidity;
a part is skipped only when the description is empty AND there is no
temperature range AND no humidity average
(`if (!desc && !mm && hAvg === null) continue`). -/
def buildSegmentsForDay (fromISO : String → Option LocalDT) (targetDateISO : String)
    (hourlyTime : List String) (hourlyCode hourlyTemp hourlyHum : List JsVal) : List Segment :=
  dayParts.filterMap (fun p =>
    let codes := bucketVals fromISO targetDateISO hourlyTime hourlyCode p
    let temps := bucketVals fromISO targetDateISO hourlyTime hourlyTemp p
    let hums := bucketVals fromISO targetDateISO hourlyTime hourlyHum p
    let desc := weatherCodeToSpanish (pickMostFrequent codes)
    let mm := minMaxRounded temps
    let hAvg := avgRounded hums
    if desc = "" ∧ mm = none ∧ hAvg = none then none
    else some ⟨p.key, desc, mm, hAvg⟩)

/-- `dayLabel(i)`. -/
def dayLabel (i : Nat) : Option String :=
  if i = 0 then some "Hoy"
  else if i = 1 then some "Mañana"
  else if i = 2 then some "Pasado mañana"
  else none

/-- The text of one segment inside `formatDayLine`:
`"<key>: [<desc>.] [Entre <min> y <max> grados.] [Humedad <avg> por ciento.]"`. -/
def segText (s : Segment) : String :=
  let bits := [s.key ++ ":"]
    ++ (if s.desc ≠ "" then [safeText (some s.desc) ++ "."] else [])
    ++ (match s.mm with
        | some mm => ["Entre " ++ toString mm.1 ++ " y " ++ toString mm.2 ++ " grados."]
        | none => [])
    ++ (match s.hum with
        | some h => ["Humedad " ++ toString h ++ " por ciento."]
        | none => [])
  String.intercalate " " bits

/-- `formatDayLine(label, segments)`: empty when there is no segment,
otherwise the label followed by every segment's text. -/
def formatDayLine (label : String) (segments : List Segment) : String :=
  if segments.isEmpty then ""
  else label ++ ". " ++ String.intercalate " " (segments.map segText)

/-- The single spoken text assembled by the variant `refreshFromOpenMeteo`:
location, the non-empty day lines, then `Actualizado HH:MM.` — all joined
with single spaces into ONE string, which `buildXml` then sanitizes as a
whole.  Note: no part of this pipeline depends on the current local hour
(the variant applies no current-day filtering and flags nothing). -/
def refreshText (fromISO : String → Option LocalDT) (dates : Nat → String)
    (updatedAt : String) (hTime : List String) (hCode hTemp hHum : List JsVal) : String :=
  let dayLines := (List.range 3).filterMap (fun d =>
    match dayLabel d with
    | none => none
    | some label =>
      let line := formatDayLine label
        (buildSegmentsForDay fromISO (dates d) hTime hCode hTemp hHum)
      if line = "" then none else some line)
  let parts := ["Capital Federal."]
    ++ (if dayLines.isEmpty then [] else [String.intercalate " " dayLines])
    ++ ["Actualizado " ++ updatedAt ++ "."]
  String.intercalate " " parts

/-- `buildXml(text)`: a single `Say` element whose text is `safeText(text)`;
modelled as that sanitized string. -/
def buildXml (text : String) : String := safeText (some text)

/-- The shared cache record of the unnamed variant (no degraded flag). -/
structure CacheEntry where
  xml : Option String
  timestamp : Option Int
deriving DecidableEq

/-- `ensureDegradedXml()` of the unnamed variant: UNCONDITIONALLY overwrites
the cache entry with the degraded payload, even when a usable entry from a
previous successful refresh exists. -/
def ensureDegradedXml (hhmm : String) (now : Int) (_st : CacheEntry) : CacheEntry :=
  ⟨some (buildXml
      ("Clima para Capital Federal no disponible por el momento. Actualizado " ++ hhmm ++ ".")),
    some now⟩

/-- Same outcome type for the variant (its payload is a single string). -/
inductive RefreshOutcome where
  | ok (payload : String) (ts : Int)
  | err
deriving DecidableEq

/-- `shouldRefresh` of the variant's `GET /weather/voice` handler —
textually identical logic to `src/app.js`. -/
def shouldRefresh (st : CacheEntry) (now : Int) : Bool :=
  match st.xml, st.timestamp with
  | none, _ => true
  | some _, none => true
  | some _, some t =>
    if t = 0 then true else decide (App.CACHE_MAX_MINUTES * 60000 < now - t)

/-- The variant's `GET /weather/voice` handler. -/
def readVoice (hhmm : String) (now : Int) (st : CacheEntry) (o : RefreshOutcome) :
    CacheEntry × Option String :=
  let st' :=
    if shouldRefresh st now then
      match o with
      | .ok p ts => ⟨some p, some ts⟩
      | .err => ensureDegradedXml hhmm now st
    else st
  (st', st'.xml)

end CabaClima.P0

namespace CabaClima.SF

/-- Outcome of one upstream pipeline run. -/
inductive Outcome where
  | ok
  | fail
deriving DecidableEq

/-- Events of the event-loop model of `refreshWithLock` (identical in both
source files): a `trigger` is one call — forced refresh, read-induced
refresh, scheduled cron tick or startup refresh; a `complete` is the
settling of the in-flight attempt. -/
inductive Ev where
  | trigger (caller : Nat)
  | complete (o : Outcome)
deriving DecidableEq

/-- The single-flight state: `inflight` is the `refreshPromise` slot
(`some h` = attempt `h` outstanding), `nextId` numbers attempts, `started`
counts upstream pipeline starts, `completedIds` the attempts whose handle
has been cleared, `waiters` the callers attached to a not-yet-settled
attempt, and `observed` records which caller observed which outcome of
which attempt. -/
structure State where
  inflight : Option Nat
  nextId : Nat
  started : Nat
  completedIds : List Nat
  waiters : List (Nat × Nat)
  observed : List (Nat × Nat × Outcome)
deriving DecidableEq

def init : State := ⟨none, 0, 0, [], [], []⟩

/-- One event step.  JavaScript is single threaded, so the body of
`refreshWithLock` (check `refreshPromise`, possibly start the pipeline and
store the handle) runs atomically: a `trigger` finding `inflight = some h`
returns that same promise — the caller attaches to `h` and nothing starts;
a `trigger` finding no in-flight attempt starts attempt `nextId` and stores
its handle.  A `complete` models the attempt settling: the `finally` clears
the handle (regardless of the outcome) and every attached caller observes
the attempt's outcome.  A `complete` with nothing in flight cannot occur (a
promise settles exactly once) and is modelled as a no-op. -/
def step (s : State) : Ev → State
  | .trigger c =>
    match s.inflight with
    | some h => { s with waiters := (c, h) :: s.waiters }
    | none =>
      { s with
        inflight := some s.nextId
        nextId := s.nextId + 1
        started := s.started + 1
        waiters := (c, s.nextId) :: s.waiters }
  | .complete o =>
    match s.inflight with
    | some h =>
      { s with
        inflight := none
        completedIds := h :: s.completedIds
        observed := (s.waiters.filter (fun w => w.2 == h)).map (fun w => (w.1, h, o))
          ++ s.observed
        waiters := s.waiters.filter (fun w => w.2 != h) }
    | none => s

/-- Run a whole trace of triggers and completions from the initial state. -/
def run (tr : List Ev) : State := tr.foldl step init

/-- The single-flight invariant. -/
def Inv (s : State) : Prop :=
  s.started = s.completedIds.length + (if s.inflight.isSome then 1 else 0)
  ∧ s.completedIds.Nodup
  ∧ (∀ h, s.inflight = some h → h ∉ s.completedIds)
  ∧ (∀ h, s.inflight = some h → h < s.nextId)
  ∧ (∀ h ∈ s.completedIds, h < s.nextId)
  ∧ (∀ c h o, (c, h, o) ∈ s.observed → h ∈ s.completedIds)
  ∧ (∀ c1 c2 h o1 o2, (c1, h, o1) ∈ s.observed → (c2, h, o2) ∈ s.observed → o1 = o2)

end CabaClima.SF

namespace CabaClima

/-- A concrete instance of the external ISO-timestamp parse, handling
exactly the `YYYY-MM-DDTHH:MM` local-time strings the Open-Meteo API
returns (matching luxon's behaviour on them): the local date is the first
ten characters and the local hour the two digits after the `T`.  Used to
instantiate the `fromISO` parameter at concrete inputs. -/
def fromISOBA (s : String) : Option LocalDT :=
  let cs := s.data
  let c : Nat → Char := fun i => cs.getD i '?'
  if cs.length = 16 ∧ (c 0).isDigit ∧ (c 1).isDigit ∧ (c 2).isDigit ∧ (c 3).isDigit
      ∧ c 4 = '-' ∧ (c 5).isDigit ∧ (c 6).isDigit ∧ c 7 = '-' ∧ (c 8).isDigit
      ∧ (c 9).isDigit ∧ c 10 = 'T' ∧ (c 11).isDigit ∧ (c 12).isDigit ∧ c 13 = ':'
      ∧ (c 14).isDigit ∧ (c 15).isDigit then
    let hr := ((c 11).toNat - 48) * 10 + ((c 12).toNat - 48)
    if hlt : hr < 24 then some ⟨⟨cs.take 10⟩, ⟨hr, hlt⟩⟩ else none
  else none

/-- Helper predicate for theorem statements: `hhmm` is a plausible
`toFormat('HH:mm')` result — whitespace-free and short. -/
def GoodStamp (hhmm : String) : Prop :=
  (∀ c ∈ hhmm.data, isWs c = false) ∧ hhmm.data.length ≤ 200

instance : DecidablePred GoodStamp := fun hhmm =>
  inferInstanceAs (Decidable ((∀ c ∈ hhmm.data, isWs c = false) ∧ hhmm.data.length ≤ 200))

/-- List-level suffix test used in counterexample statements. -/
def endsWithL (l suf : List Char) : Bool :=
  decide (suf = l.drop (l.length - suf.length))

/-- The trailing update line `"Actualizado HH:MM."`. -/
def actualizado (hhmm : String) : String := "Actualizado " ++ hhmm ++ "."

/-- First-occurrence order of the elements of `l` (proof device: the key
order of the JS insertion-ordered `Map`). -/
def firstSeen (l : List Rat) : List Rat :=
  l.foldl (fun acc v => if v ∈ acc then acc else acc ++ [v]) []

/-- The tail of the `best / bestCount` scan once a first candidate exists
(proof device for `pickBest`). -/
def pickGo (b : Rat × Nat) : List (Rat × Nat) → Rat × Nat
  | [] => b
  | e :: r => pickGo (if b.2 < e.2 then e else b) r

/-- Concrete base dates used to instantiate witnesses and counterexamples. -/
def sampleDates : Nat → String := fun d =>
  if d = 0 then "2024-05-15" else if d = 1 then "2024-05-16" else "2024-05-17"

/-- A concrete cache entry of the unnamed variant produced by its own
success path (`refreshFromOpenMeteo` with an empty upstream `hourly`
payload, stored at time 100): a usable, non-degraded entry. -/
def p0SuccessEntry : P0.CacheEntry :=
  ⟨some (P0.buildXml (P0.refreshText fromISOBA sampleDates "10:00" [] [] [] [])), some 100⟩

end CabaClima

/-! ## Sanitization lemmas (`safeText`) -/

namespace CabaClima

theorem collapseWs_ws_space (l : List Char) :
    ∀ (b : Bool), ∀ c ∈ collapseWs b l, isWs c = true → c = ' ' := by
  induction l with
  | nil => intro b c hc; simp [collapseWs] at hc
  | cons a rest ih =>
    intro b c hc hws
    by_cases ha : isWs a
    · cases b with
      | true =>
        rw [show collapseWs true (a :: rest) = collapseWs true rest by
          simp [collapseWs, ha]] at hc
        exact ih true c hc hws
      | false =>
        rw [show collapseWs false (a :: rest) = ' ' :: collapseWs true rest by
          simp [collapseWs, ha]] at hc
        rcases List.mem_cons.mp hc with h | h
        · exact h
        · exact ih true c h hws
    · rw [show collapseWs b (a :: rest) = a :: collapseWs false rest by
        simp [collapseWs, ha]] at hc
      rcases List.mem_cons.mp hc with h | h
      · subst h; exact absurd hws ha
      · exact ih false c h hws

theorem collapseWs_head_not_ws (l : List Char) :
    ∀ c, (collapseWs true l).head? = some c → isWs c = false := by
  induction l with
  | nil => intro c h; simp [collapseWs] at h
  | cons a rest ih =>
    intro c h
    by_cases ha : isWs a
    · rw [show collapseWs true (a :: rest) = collapseWs true rest by
        simp [collapseWs, ha]] at h
      exact ih c h
    · rw [show collapseWs true (a :: rest) = a :: collapseWs false rest by
        simp [collapseWs, ha]] at h
      simp only [List.head?_cons, Option.some.injEq] at h
      subst h; simpa using ha

theorem collapseWs_chain (l : List Char) :
    ∀ b, List.Chain' noWsPair (collapseWs b l) := by
  induction l with
  | nil => intro b; simp [collapseWs]
  | cons a rest ih =>
    intro b
    by_cases ha : isWs a
    · cases b with
      | true =>
        rw [show collapseWs true (a :: rest) = collapseWs true rest by
          simp [collapseWs, ha]]
        exact ih true
      | false =>
        rw [show collapseWs false (a :: rest) = ' ' :: collapseWs true rest by
          simp [collapseWs, ha]]
        rw [List.chain'_cons']
        refine ⟨?_, ih true⟩
        intro y hy
        have := collapseWs_head_not_ws rest y hy
        exact fun hcon => by rw [this] at hcon; exact Bool.false_ne_true hcon.2
    · rw [show collapseWs b (a :: rest) = a :: collapseWs false rest by
        simp [collapseWs, ha]]
      rw [List.chain'_cons']
      refine ⟨?_, ih false⟩
      intro y _
      exact fun hcon => ha hcon.1

theorem chain_noWsPair_reverse {m : List Char} (h : List.Chain' noWsPair m) :
    List.Chain' noWsPair m.reverse := by
  rw [List.chain'_reverse]
  exact h.imp (fun a b hab => fun hcon => hab ⟨hcon.2, hcon.1⟩)

theorem trimL_chain {m : List Char} (h : List.Chain' noWsPair m) :
    List.Chain' noWsPair (trimL m) :=
  h.suffix (List.dropWhile_suffix isWs)

theorem trimR_chain {m : List Char} (h : List.Chain' noWsPair m) :
    List.Chain' noWsPair (trimR m) :=
  chain_noWsPair_reverse ((chain_noWsPair_reverse h).suffix (List.dropWhile_suffix isWs))

theorem trimWs_chain {m : List Char} (h : List.Chain' noWsPair m) :
    List.Chain' noWsPair (trimWs m) :=
  trimR_chain (trimL_chain h)

theorem trimL_subset {m : List Char} : ∀ c ∈ trimL m, c ∈ m :=
  fun _ hc => (List.dropWhile_suffix isWs).sublist.mem hc

theorem trimR_subset {m : List Char} : ∀ c ∈ trimR m, c ∈ m := by
  intro c hc
  have h1 : c ∈ m.reverse.dropWhile isWs := List.mem_reverse.mp hc
  have h2 : c ∈ m.reverse := (List.dropWhile_suffix isWs).sublist.mem h1
  exact List.mem_reverse.mp h2

theorem trimWs_subset {m : List Char} : ∀ c ∈ trimWs m, c ∈ m :=
  fun c hc => trimL_subset c (trimR_subset c hc)

theorem dropWhile_head_not_ws {m : List Char} :
    ∀ c, (m.dropWhile isWs).head? = some c → isWs c = false := by
  intro c h
  have := List.head?_dropWhile_not isWs m
  rw [h] at this
  exact this

theorem trimR_getLast_not_ws {m : List Char} :
    ∀ c, (trimR m).getLast? = some c → isWs c = false := by
  intro c h
  rw [trimR, List.getLast?_reverse] at h
  exact dropWhile_head_not_ws c h

theorem getLast?_of_suffix {α : Type} {l₁ l₂ : List α} (h : l₁ <:+ l₂) (hne : l₁ ≠ []) :
    l₁.getLast? = l₂.getLast? := by
  obtain ⟨pre, rfl⟩ := h
  rw [List.getLast?_append]
  cases hl : l₁.getLast? with
  | none => exact absurd (List.getLast?_eq_none_iff.mp hl) hne
  | some a => simp

theorem trimR_head_eq {m : List Char} : (trimR m).head? = m.head? ∨ trimR m = [] := by
  by_cases hne : m.reverse.dropWhile isWs = []
  · right; simp [trimR, hne]
  · left
    rw [trimR, List.head?_reverse,
      getLast?_of_suffix (List.dropWhile_suffix isWs) hne, List.getLast?_reverse]

theorem trimWs_head_not_ws {m : List Char} :
    ∀ c, (trimWs m).head? = some c → isWs c = false := by
  intro c h
  rcases trimR_head_eq (m := trimL m) with he | he
  · rw [trimWs, he] at h
    exact dropWhile_head_not_ws c h
  · rw [trimWs, he] at h; simp at h

theorem trimWs_getLast_not_ws {m : List Char} :
    ∀ c, (trimWs m).getLast? = some c → isWs c = false :=
  fun c h => trimR_getLast_not_ws c h

theorem trimR_length_le {m : List Char} : (trimR m).length ≤ m.length := by
  rw [trimR, List.length_reverse]
  calc (m.reverse.dropWhile isWs).length ≤ m.reverse.length :=
        (List.dropWhile_suffix isWs).sublist.length_le
    _ = m.length := List.length_reverse m

theorem trimWs_length_le {m : List Char} : (trimWs m).length ≤ m.length :=
  le_trans trimR_length_le ((List.dropWhile_suffix isWs).sublist.length_le)

/-- The four sanitization facts about `sanitize`. -/
theorem sanitize_spec (l : List Char) :
    List.Chain' noWsPair (sanitize l)
    ∧ (∀ c ∈ sanitize l, isWs c = true → c = ' ')
    ∧ (sanitize l).length ≤ 240
    ∧ (∀ c, (sanitize l).head? = some c → isWs c = false)
    ∧ (∀ c, (sanitize l).getLast? = some c → isWs c = false) := by
  rw [sanitize]
  set s := trimWs (collapseWs false l) with hs
  have hchain : List.Chain' noWsPair s := trimWs_chain (collapseWs_chain l false)
  have hspace : ∀ c ∈ s, isWs c = true → c = ' ' :=
    fun c hc => collapseWs_ws_space l false c (trimWs_subset c hc)
  by_cases hlen : 240 < s.length
  · simp only [hlen, if_true]
    refine ⟨trimWs_chain (hchain.take 240), ?_, ?_, ?_, ?_⟩
    · intro c hc
      exact hspace c ((List.take_sublist 240 s).mem (trimWs_subset c hc))
    · exact le_trans trimWs_length_le (by simp)
    · exact trimWs_head_not_ws
    · exact trimWs_getLast_not_ws
  · simp only [hlen, if_false]
    refine ⟨hchain, hspace, by omega, ?_, ?_⟩
    · intro c h
      rcases trimR_head_eq (m := trimL (collapseWs false l)) with he | he
      · rw [hs, trimWs, he] at h
        exact dropWhile_head_not_ws c h
      · rw [hs, trimWs, he] at h; simp at h
    · exact fun c h => trimR_getLast_not_ws c h

theorem collapseWs_eq_self (l : List Char) :
    ∀ b, List.Chain' noWsPair l → (∀ c ∈ l, isWs c = true → c = ' ') →
      (b = true → ∀ c, l.head? = some c → isWs c = false) → collapseWs b l = l := by
  induction l with
  | nil => intro b _ _ _; simp [collapseWs]
  | cons a rest ih =>
    intro b hchain hspace hhead
    by_cases ha : isWs a
    · cases b with
      | true => exact absurd ha (by rw [hhead rfl a rfl]; exact Bool.false_ne_true)
      | false =>
        rw [show collapseWs false (a :: rest) = ' ' :: collapseWs true rest by
          simp [collapseWs, ha]]
        have ha' : a = ' ' := hspace a (List.mem_cons_self a rest) ha
        have hrest : collapseWs true rest = rest := by
          refine ih true ((List.chain'_cons'.mp hchain).2)
            (fun c hc => hspace c (List.mem_cons_of_mem a hc)) ?_
          intro _ c hc
          have hr := (List.chain'_cons'.mp hchain).1 c hc
          by_contra hcw
          exact hr ⟨ha, by revert hcw; cases isWs c <;> simp⟩
        rw [hrest, ha']
    · rw [show collapseWs b (a :: rest) = a :: collapseWs false rest by
        simp [collapseWs, ha]]
      rw [ih false ((List.chain'_cons'.mp hchain).2)
        (fun c hc => hspace c (List.mem_cons_of_mem a hc)) (by intro h; exact absurd h (by simp))]

theorem trimL_eq_self {l : List Char} (h : ∀ c, l.head? = some c → isWs c = false) :
    trimL l = l := by
  cases l with
  | nil => rfl
  | cons a rest =>
    rw [trimL, List.dropWhile_cons_of_neg]
    rw [h a rfl]
    exact Bool.false_ne_true

theorem trimR_eq_self {l : List Char} (h : ∀ c, l.getLast? = some c → isWs c = false) :
    trimR l = l := by
  rw [trimR, show l.reverse.dropWhile isWs = l.reverse from ?_, List.reverse_reverse]
  refine trimL_eq_self ?_
  intro c hc
  exact h c (by rwa [List.head?_reverse] at hc)

theorem sanitize_eq_self {l : List Char} (hchain : List.Chain' noWsPair l)
    (hspace : ∀ c ∈ l, isWs c = true → c = ' ')
    (hhead : ∀ c, l.head? = some c → isWs c = false)
    (hlast : ∀ c, l.getLast? = some c → isWs c = false)
    (hlen : l.length ≤ 240) : sanitize l = l := by
  rw [sanitize]
  have hc : collapseWs false l = l :=
    collapseWs_eq_self l false hchain hspace (by intro h; exact absurd h (by simp))
  have ht : trimWs l = l := by
    rw [trimWs, trimL_eq_self hhead, trimR_eq_self hlast]
  simp only [hc, ht]
  have : ¬(240 < l.length) := by omega
  simp [this]

theorem chain_of_no_ws {l : List Char} (h : ∀ c ∈ l, isWs c = false) :
    List.Chain' noWsPair l := by
  induction l with
  | nil => simp
  | cons a rest ih =>
    rw [List.chain'_cons']
    refine ⟨?_, ih (fun c hc => h c (List.mem_cons_of_mem a hc))⟩
    intro y _ hcon
    rw [h a (List.mem_cons_self a rest)] at hcon
    exact Bool.false_ne_true hcon.1

/-- With a whitespace-free short `hhmm`, the `Actualizado` line is a fixed
point of `safeText` (so it survives sanitization verbatim). -/
theorem safeText_actualizado {hhmm : String} (h : GoodStamp hhmm) :
    safeText (some (actualizado hhmm)) = actualizado hhmm := by
  obtain ⟨hws, hlen⟩ := h
  have hdata : (actualizado hhmm).data
      = ['A','c','t','u','a','l','i','z','a','d','o',' '] ++ (hhmm.data ++ ['.']) := by
    show ("Actualizado " ++ hhmm ++ ".").data = _
    rw [String.data_append, String.data_append]
    rfl
  set LA : List Char := ['A','c','t','u','a','l','i','z','a','d','o',' '] with hLA
  have htail : ∀ c ∈ hhmm.data ++ ['.'], isWs c = false := by
    intro c hc
    rcases List.mem_append.mp hc with h1 | h1
    · exact hws c h1
    · rcases List.mem_singleton.mp h1 with rfl; decide
  have hchain : List.Chain' noWsPair (actualizado hhmm).data := by
    rw [hdata, List.chain'_append]
    refine ⟨?_, chain_of_no_ws htail, ?_⟩
    · simp only [hLA, List.chain'_cons, List.chain'_singleton, and_true]
      refine ⟨?_, ?_, ?_, ?_, ?_, ?_, ?_, ?_, ?_, ?_, ?_⟩ <;> decide
    intro x hx y hy hcon
    have hymem : y ∈ hhmm.data ++ ['.'] := List.mem_of_mem_head? hy
    rw [htail y hymem] at hcon
    exact Bool.false_ne_true hcon.2
  have hspace : ∀ c ∈ (actualizado hhmm).data, isWs c = true → c = ' ' := by
    intro c hc hcw
    rw [hdata] at hc
    rcases List.mem_append.mp hc with h1 | h1
    · have hall : ∀ c ∈ LA, isWs c = true → c = ' ' := by decide
      exact hall c h1 hcw
    · rw [htail c h1] at hcw; exact absurd hcw Bool.false_ne_true
  have hhead : ∀ c, (actualizado hhmm).data.head? = some c → isWs c = false := by
    intro c hc
    rw [hdata] at hc
    rw [show (LA ++ (hhmm.data ++ ['.'])).head? = some 'A' from rfl] at hc
    rw [(Option.some.inj hc).symm]
    decide
  have hlast : ∀ c, (actualizado hhmm).data.getLast? = some c → isWs c = false := by
    intro c hc
    rw [hdata, show LA ++ (hhmm.data ++ ['.']) = (LA ++ hhmm.data) ++ ['.'] by simp,
      List.getLast?_concat] at hc
    have : c = '.' := (Option.some.inj hc).symm
    rw [this]; decide
  have hlength : (actualizado hhmm).data.length ≤ 240 := by
    rw [hdata]
    have hL12 : LA.length = 12 := rfl
    simp only [List.length_append, List.length_cons, List.length_nil, hL12]
    omega
  rw [safeText]
  show (⟨sanitize (actualizado hhmm).data⟩ : String) = actualizado hhmm
  rw [sanitize_eq_self hchain hspace hhead hlast hlength]

/-! ## Most-frequent-code lemmas (`pickMostFrequent`) -/

theorem firstSeen_aux_mem (l : List Rat) :
    ∀ acc a, a ∈ l.foldl (fun acc v => if v ∈ acc then acc else acc ++ [v]) acc
      ↔ a ∈ acc ∨ a ∈ l := by
  induction l with
  | nil => intro acc a; simp
  | cons x r ih =>
    intro acc a
    rw [List.foldl_cons, ih]
    by_cases hx : x ∈ acc
    · simp only [hx, if_true, List.mem_cons]
      constructor
      · rintro (h | h)
        · exact Or.inl h
        · exact Or.inr (Or.inr h)
      · rintro (h | h | h)
        · exact Or.inl h
        · exact Or.inl (h ▸ hx)
        · exact Or.inr h
    · simp only [hx, if_false, List.mem_append, List.mem_singleton, List.mem_cons]
      tauto

theorem firstSeen_mem {l : List Rat} {a : Rat} : a ∈ firstSeen l ↔ a ∈ l := by
  rw [firstSeen, firstSeen_aux_mem]
  simp

theorem firstSeen_aux_nodup (l : List Rat) :
    ∀ acc : List Rat, acc.Nodup →
      (l.foldl (fun acc v => if v ∈ acc then acc else acc ++ [v]) acc).Nodup := by
  induction l with
  | nil => intro acc h; simpa using h
  | cons x r ih =>
    intro acc h
    rw [List.foldl_cons]
    by_cases hx : x ∈ acc
    · rw [if_pos hx]; exact ih acc h
    · rw [if_neg hx]
      refine ih _ (h.append (List.nodup_singleton x) ?_)
      intro y hy hyx
      rcases List.mem_singleton.mp hyx with rfl
      exact hx hy

theorem firstSeen_nodup (l : List Rat) : (firstSeen l).Nodup :=
  firstSeen_aux_nodup l [] List.nodup_nil

theorem firstSeen_snoc (l : List Rat) (x : Rat) :
    firstSeen (l ++ [x]) = if x ∈ l then firstSeen l else firstSeen l ++ [x] := by
  rw [firstSeen, List.foldl_append, List.foldl_cons, List.foldl_nil, ← firstSeen]
  by_cases h : x ∈ l
  · rw [if_pos (firstSeen_mem.mpr h), if_pos h]
  · rw [if_neg (fun hc => h (firstSeen_mem.mp hc)), if_neg h]

theorem buildFreq_eq_foldl (arr : List JsVal) :
    buildFreq arr = (arr.filterMap toFinite).foldl bump [] := by
  suffices haux : ∀ (l : List JsVal) (acc : List (Rat × Nat)),
      l.foldl (fun f v => match toFinite v with | some n => bump f n | none => f) acc
        = (l.filterMap toFinite).foldl bump acc by
    exact haux arr []
  intro l
  induction l with
  | nil => intro acc; simp
  | cons a r ih =>
    intro acc
    rw [List.foldl_cons, List.filterMap_cons]
    cases h : toFinite a with
    | none => rw [ih]
    | some n => rw [List.foldl_cons, ih]

theorem freq_formula (vals : List Rat) :
    vals.foldl bump [] = (firstSeen vals).map (fun k => (k, vals.count k)) := by
  induction vals using List.reverseRecOn with
  | nil => rfl
  | append_singleton l x ih =>
    rw [List.foldl_append, List.foldl_cons, List.foldl_nil, ih, firstSeen_snoc]
    by_cases hx : x ∈ l
    · have hany : ((firstSeen l).map (fun k => (k, l.count k))).any
          (fun e => e.1 == x) = true := by
        rw [List.any_eq_true]
        exact ⟨(x, l.count x), List.mem_map.mpr ⟨x, firstSeen_mem.mpr hx, rfl⟩, by simp⟩
      rw [if_pos hx, bump, if_pos hany, List.map_map]
      refine List.map_congr_left ?_
      intro k _
      simp only [Function.comp_apply]
      by_cases hkx : k = x
      · subst hkx
        rw [if_pos rfl]
        simp [List.count_append, List.count_singleton]
      · rw [if_neg hkx]
        have hz : List.count k [x] = 0 := by
          rw [List.count_eq_zero]
          simpa using hkx
        simp [List.count_append, hz]
    · have hany : ¬(((firstSeen l).map (fun k => (k, l.count k))).any
          (fun e => e.1 == x) = true) := by
        rw [List.any_eq_true]
        rintro ⟨e, he, hbeq⟩
        obtain ⟨k, hk, rfl⟩ := List.mem_map.mp he
        have hkx : k = x := by simpa using hbeq
        exact hx (firstSeen_mem.mp (hkx ▸ hk))
      rw [if_neg hx, bump, if_neg hany, List.map_append]
      congr 1
      · refine List.map_congr_left ?_
        intro k hk
        have hkx : ¬(x = k) := fun hcon => hx (hcon ▸ firstSeen_mem.mp hk)
        have hz : List.count k [x] = 0 := by
          rw [List.count_eq_zero]
          simpa using fun hcon => hkx hcon.symm
        simp [List.count_append, hz]
      · have hz : l.count x = 0 := List.count_eq_zero.mpr hx
        simp [List.count_append, List.count_singleton, hz]

theorem pickGo_spec (l : List (Rat × Nat)) :
    ∀ b : Rat × Nat,
      (pickGo b l = b ∨ pickGo b l ∈ l)
      ∧ b.2 ≤ (pickGo b l).2
      ∧ (∀ e ∈ l, e.2 ≤ (pickGo b l).2)
      ∧ ∃ l1 l2, b :: l = l1 ++ (pickGo b l) :: l2
          ∧ ∀ x ∈ l1, x.2 < (pickGo b l).2 := by
  induction l with
  | nil =>
    intro b
    exact ⟨Or.inl rfl, le_refl _, by simp, [], [], rfl, by simp⟩
  | cons e r ih =>
    intro b
    have hstep : pickGo b (e :: r) = pickGo (if b.2 < e.2 then e else b) r := rfl
    obtain ⟨ihA, ihB, ihC, l1, l2, hsplit, hlt⟩ := ih (if b.2 < e.2 then e else b)
    have hb'1 : b.2 ≤ (if b.2 < e.2 then e else b).2 := by
      split
      · omega
      · exact le_refl _
    have hb'2 : e.2 ≤ (if b.2 < e.2 then e else b).2 := by
      split
      · exact le_refl _
      · omega
    refine ⟨?_, ?_, ?_, ?_⟩
    · rw [hstep]
      rcases ihA with h | h
      · rw [h]
        by_cases hc : b.2 < e.2
        · rw [if_pos hc]; exact Or.inr (List.mem_cons_self e r)
        · rw [if_neg hc]; exact Or.inl rfl
      · exact Or.inr (List.mem_cons_of_mem e h)
    · rw [hstep]; exact le_trans hb'1 ihB
    · rw [hstep]
      intro x hx
      rcases List.mem_cons.mp hx with rfl | hx
      · exact le_trans hb'2 ihB
      · exact ihC x hx
    · rw [hstep]
      cases l1 with
      | nil =>
        have hsp := hsplit
        simp only [List.nil_append, List.cons.injEq] at hsp
        obtain ⟨hbr, hrl⟩ := hsp
        by_cases hc : b.2 < e.2
        · refine ⟨[b], l2, ?_, ?_⟩
          · rw [← hbr, if_pos hc, ← hrl]
            rfl
          · intro x hx
            rcases List.mem_singleton.mp hx with rfl
            calc x.2 < e.2 := hc
              _ = (if x.2 < e.2 then e else x).2 := by rw [if_pos hc]
              _ ≤ (pickGo (if x.2 < e.2 then e else x) r).2 := ihB
        · refine ⟨[], e :: r, ?_, by simp⟩
          rw [← hbr, if_neg hc]
          rfl
      | cons h1 t1 =>
        have hsp := hsplit
        simp only [List.cons_append, List.cons.injEq] at hsp
        obtain ⟨hh1, hr⟩ := hsp
        refine ⟨b :: e :: t1, l2, ?_, ?_⟩
        · conv_lhs => rw [hr]
          rfl
        · intro x hx
          have hb'lt : (if b.2 < e.2 then e else b).2 < (pickGo (if b.2 < e.2 then e else b) r).2 := by
            have hsnd : (if b.2 < e.2 then e else b).2 = h1.2 := congrArg Prod.snd hh1
            rw [hsnd]
            exact hlt h1 (List.mem_cons_self h1 t1)
          rcases List.mem_cons.mp hx with rfl | hx
          · exact lt_of_le_of_lt hb'1 hb'lt
          · rcases List.mem_cons.mp hx with rfl | hx
            · exact lt_of_le_of_lt hb'2 hb'lt
            · exact hlt x (List.mem_cons_of_mem h1 hx)

theorem pickBest_go (r : List (Rat × Nat)) :
    ∀ b : Rat × Nat,
      r.foldl (fun best e =>
        match best with
        | none => some e
        | some b => if b.2 < e.2 then some e else some b) (some b) = some (pickGo b r) := by
  induction r with
  | nil => intro b; rfl
  | cons e t ih =>
    intro b
    rw [List.foldl_cons]
    show t.foldl _ (if b.2 < e.2 then some e else some b) = _
    rw [show (if b.2 < e.2 then some e else some b) = some (if b.2 < e.2 then e else b) from
      (apply_ite some _ e b).symm]
    exact ih (if b.2 < e.2 then e else b)

theorem pickBest_cons (e : Rat × Nat) (r : List (Rat × Nat)) :
    pickBest (e :: r) = some (pickGo e r) := by
  rw [pickBest, List.foldl_cons]
  exact pickBest_go r e

theorem pickBest_none_iff (freq : List (Rat × Nat)) : pickBest freq = none ↔ freq = [] := by
  cases freq with
  | nil => simp [pickBest]
  | cons e r => simp [pickBest_cons]

theorem firstSeen_order (vals : List Rat) :
    ∀ F1 c F2 d, firstSeen vals = F1 ++ c :: F2 → d ∈ F2 →
      vals.indexOf c < vals.indexOf d := by
  induction vals using List.reverseRecOn with
  | nil =>
    intro F1 c F2 d h _
    rw [show firstSeen [] = [] from rfl] at h
    exact absurd h.symm (by simp)
  | append_singleton l x ih =>
    intro F1 c F2 d h hd
    rw [firstSeen_snoc] at h
    by_cases hx : x ∈ l
    · rw [if_pos hx] at h
      have hc : c ∈ l := firstSeen_mem.mp (by
        rw [h]; exact List.mem_append.mpr (Or.inr (List.mem_cons_self c F2)))
      have hdl : d ∈ l := firstSeen_mem.mp (by
        rw [h]; exact List.mem_append.mpr (Or.inr (List.mem_cons_of_mem c hd)))
      rw [List.indexOf_append_of_mem hc, List.indexOf_append_of_mem hdl]
      exact ih F1 c F2 d h hd
    · rw [if_neg hx] at h
      have hnd : (firstSeen l ++ [x]).Nodup := by
        refine (firstSeen_nodup l).append (List.nodup_singleton x) ?_
        intro y hy hyx
        rcases List.mem_singleton.mp hyx with rfl
        exact hx (firstSeen_mem.mp hy)
      by_cases hdx : d = x
      · have hnd' : (F1 ++ c :: F2).Nodup := h ▸ hnd
        have hcx : ¬(c = x) := by
          intro hcx
          have hcd : c = d := hcx.trans hdx.symm
          have hnotin := (List.nodup_cons.mp (List.nodup_middle.mp hnd')).1
          exact hnotin (List.mem_append.mpr (Or.inr (by rw [hcd]; exact hd)))
        have hc : c ∈ l := by
          have hcm : c ∈ firstSeen l ++ [x] := by
            rw [h]; exact List.mem_append.mpr (Or.inr (List.mem_cons_self c F2))
          rcases List.mem_append.mp hcm with hm | hm
          · exact firstSeen_mem.mp hm
          · exact absurd (List.mem_singleton.mp hm) hcx
        rw [hdx, List.indexOf_append_of_mem hc, List.indexOf_append_of_not_mem hx,
          List.indexOf_cons_self]
        have hlen := List.indexOf_lt_length.mpr hc
        omega
      · have hF2 : F2 ≠ [] := fun hcon => by rw [hcon] at hd; exact absurd hd (by simp)
        have hz : F2.getLast hF2 = x := by
          have hg := congrArg List.getLast? h
          rw [List.getLast?_concat] at hg
          rw [show F1 ++ c :: F2 = (F1 ++ c :: F2.dropLast) ++ [F2.getLast hF2] from ?_] at hg
          · rw [List.getLast?_concat] at hg
            exact (Option.some.inj hg).symm
          · conv_lhs => rw [show c :: F2 = c :: (F2.dropLast ++ [F2.getLast hF2]) from by
              rw [List.dropLast_concat_getLast hF2]]
            simp
        have hF2' : F2 = F2.dropLast ++ [x] := by
          conv_lhs => rw [← List.dropLast_concat_getLast hF2]
          rw [hz]
        have hsplit : firstSeen l = F1 ++ c :: F2.dropLast := by
          have h' : firstSeen l ++ [x] = (F1 ++ c :: F2.dropLast) ++ [x] := by
            rw [h]
            conv_lhs => rw [hF2']
            simp
          exact List.append_cancel_right h'
        have hdl : d ∈ F2.dropLast := by
          have : d ∈ F2.dropLast ++ [x] := hF2' ▸ hd
          rcases List.mem_append.mp this with hm | hm
          · exact hm
          · exact absurd (List.mem_singleton.mp hm) hdx
        have hc : c ∈ l := firstSeen_mem.mp (by
          rw [hsplit]; exact List.mem_append.mpr (Or.inr (List.mem_cons_self c _)))
        have hdll : d ∈ l := firstSeen_mem.mp (by
          rw [hsplit]; exact List.mem_append.mpr (Or.inr (List.mem_cons_of_mem c hdl)))
        rw [List.indexOf_append_of_mem hc, List.indexOf_append_of_mem hdll]
        exact ih F1 c F2.dropLast d hsplit hdl

/-- Full characterization of `pickMostFrequent`: the result is a collected
finite value of maximal frequency, and its first occurrence is no later than
that of any value of equal (hence maximal) frequency. -/
theorem pickMostFrequent_spec (arr : List JsVal) {c : Rat}
    (h : pickMostFrequent arr = some c) :
    c ∈ arr.filterMap toFinite
    ∧ (∀ d ∈ arr.filterMap toFinite,
        (arr.filterMap toFinite).count d ≤ (arr.filterMap toFinite).count c)
    ∧ (∀ d ∈ arr.filterMap toFinite,
        (arr.filterMap toFinite).count d = (arr.filterMap toFinite).count c →
          (arr.filterMap toFinite).indexOf c ≤ (arr.filterMap toFinite).indexOf d) := by
  set vals := arr.filterMap toFinite with hv
  have hL : buildFreq arr = (firstSeen vals).map (fun k => (k, vals.count k)) := by
    rw [buildFreq_eq_foldl, ← hv, freq_formula]
  rw [pickMostFrequent, hL] at h
  cases hfs : firstSeen vals with
  | nil => rw [hfs] at h; simp [pickBest] at h
  | cons k0 ks =>
    rw [hfs, List.map_cons, pickBest_cons, Option.map_some'] at h
    have hrf := Option.some.inj h
    obtain ⟨hA, hB, hC, l1, l2, hsplit, hlt⟩ :=
      pickGo_spec (ks.map (fun k => (k, vals.count k))) (k0, vals.count k0)
    set rf := pickGo (k0, vals.count k0) (ks.map (fun k => (k, vals.count k))) with hrfdef
    have hmapfs : (firstSeen vals).map (fun k => (k, vals.count k))
        = (k0, vals.count k0) :: ks.map (fun k => (k, vals.count k)) := by
      rw [hfs, List.map_cons]
    have hrfmem : rf ∈ (firstSeen vals).map (fun k => (k, vals.count k)) := by
      rw [hmapfs]
      rcases hA with h1 | h1
      · rw [h1]; exact List.mem_cons_self _ _
      · exact List.mem_cons_of_mem _ h1
    obtain ⟨kc, hkc, hkceq⟩ := List.mem_map.mp hrfmem
    have hkc_c : kc = c := by
      have := congrArg Prod.fst hkceq
      simpa [hrf] using this
    have hrf_eq : rf = (c, vals.count c) := by
      rw [← hkceq, hkc_c]
    have hcfs : c ∈ firstSeen vals := hkc_c ▸ hkc
    have hcv : c ∈ vals := firstSeen_mem.mp hcfs
    have hrf2 : rf.2 = vals.count c := by rw [hrf_eq]
    refine ⟨hcv, ?_, ?_⟩
    · intro d hd
      have hdfs : d ∈ firstSeen vals := firstSeen_mem.mpr hd
      have hdm : (d, vals.count d) ∈ (firstSeen vals).map (fun k => (k, vals.count k)) :=
        List.mem_map.mpr ⟨d, hdfs, rfl⟩
      rw [hmapfs] at hdm
      rcases List.mem_cons.mp hdm with h1 | h1
      · have : vals.count d = vals.count k0 := congrArg Prod.snd h1
        rw [this, ← hrf2]
        exact hB
      · rw [← hrf2]
        exact hC _ h1
    · intro d hd hcount
      by_cases hdc : d = c
      · rw [hdc]
      · have hdfs : d ∈ firstSeen vals := firstSeen_mem.mpr hd
        have hdm : (d, vals.count d) ∈ (firstSeen vals).map (fun k => (k, vals.count k)) :=
          List.mem_map.mpr ⟨d, hdfs, rfl⟩
        have hsplit' : (firstSeen vals).map (fun k => (k, vals.count k)) = l1 ++ rf :: l2 := by
          rw [hmapfs, hsplit]
        have hdm2 : (d, vals.count d) ∈ l2 := by
          rw [hsplit'] at hdm
          rcases List.mem_append.mp hdm with h1 | h1
          · exfalso
            have := hlt _ h1
            rw [hrf2, hcount] at this
            exact lt_irrefl _ this
          · rcases List.mem_cons.mp h1 with h2 | h2
            · exact absurd (congrArg Prod.fst h2) (by simpa [hrf_eq] using hdc)
            · exact h2
        obtain ⟨F1, Frest, hFsplit, hmapF1, hmapFrest⟩ :=
          List.map_eq_append_iff.mp hsplit'
        obtain ⟨kc2, F2, hFrest, hfkc2, hmapF2⟩ := List.map_eq_cons_iff.mp hmapFrest
        have hkc2c : kc2 = c := by
          have := congrArg Prod.fst hfkc2
          simpa [hrf_eq] using this
        obtain ⟨kd, hkd, hfkd⟩ := List.mem_map.mp (hmapF2 ▸ hdm2)
        have hkdd : kd = d := congrArg Prod.fst hfkd
        have hfull : firstSeen vals = F1 ++ c :: F2 := by
          rw [hFsplit, hFrest, hkc2c]
        exact le_of_lt (firstSeen_order vals F1 c F2 d hfull (hkdd ▸ hkd))

end CabaClima

/-! ## Single-flight lemmas -/

namespace CabaClima.SF

theorem inv_init : Inv init := by
  refine ⟨rfl, List.nodup_nil, ?_, ?_, ?_, ?_, ?_⟩ <;> simp [init]

theorem inv_step (s : State) (e : Ev) (h : Inv s) : Inv (step s e) := by
  obtain ⟨h1, h2, h3, h4, h5, h6, h7⟩ := h
  cases e with
  | trigger c =>
    cases hin : s.inflight with
    | some hd =>
      rw [show step s (.trigger c) = { s with waiters := (c, hd) :: s.waiters } from by
        simp [step, hin]]
      exact ⟨by simpa [hin] using h1, h2, fun h' heq => h3 h' heq,
        fun h' heq => h4 h' heq, h5, h6, h7⟩
    | none =>
      rw [show step s (.trigger c)
          = { s with
              inflight := some s.nextId,
              nextId := s.nextId + 1,
              started := s.started + 1,
              waiters := (c, s.nextId) :: s.waiters } from by
        simp [step, hin]]
      have h1' : s.started = s.completedIds.length := by simpa [hin] using h1
      refine ⟨?_, h2, ?_, ?_, ?_, h6, h7⟩
      · show s.started + 1 = s.completedIds.length + _
        simp
        omega
      · intro h' heq
        have heq' : s.nextId = h' := by simpa using heq
        intro hmem
        have hlt5 := h5 h' hmem
        omega
      · intro h' heq
        have heq' : s.nextId = h' := by simpa using heq
        show h' < s.nextId + 1
        omega
      · intro h' hmem
        have hlt5 := h5 h' hmem
        show h' < s.nextId + 1
        omega
  | complete o =>
    cases hin : s.inflight with
    | none =>
      rw [show step s (.complete o) = s from by simp [step, hin]]
      exact ⟨h1, h2, h3, h4, h5, h6, h7⟩
    | some hd =>
      rw [show step s (.complete o)
          = { s with
              inflight := none,
              completedIds := hd :: s.completedIds,
              observed := (s.waiters.filter (fun w => w.2 == hd)).map
                (fun w => (w.1, hd, o)) ++ s.observed,
              waiters := s.waiters.filter (fun w => w.2 != hd) } from by
        simp [step, hin]]
      have hnotc : hd ∉ s.completedIds := h3 hd hin
      have hmemNew : ∀ c' h' o',
          (c', h', o') ∈ ((s.waiters.filter (fun w => w.2 == hd)).map
            (fun w => (w.1, hd, o))) → h' = hd ∧ o' = o := by
        intro c' h' o' hm
        obtain ⟨w, _, hweq⟩ := List.mem_map.mp hm
        have hh := congrArg (fun p => p.2.1) hweq
        have ho := congrArg (fun p => p.2.2) hweq
        exact ⟨hh.symm, ho.symm⟩
      refine ⟨?_, ?_, ?_, ?_, ?_, ?_, ?_⟩
      · have hst : s.started = s.completedIds.length + 1 := by simpa [hin] using h1
        show s.started = (hd :: s.completedIds).length + _
        simp [hst]
      · exact List.nodup_cons.mpr ⟨hnotc, h2⟩
      · intro h' heq
        exact absurd heq (by simp)
      · intro h' heq
        exact absurd heq (by simp)
      · intro h' hmem
        rcases List.mem_cons.mp hmem with rfl | hmem
        · exact h4 h' hin
        · exact h5 h' hmem
      · intro c' h' o' hmem
        rcases List.mem_append.mp hmem with hm | hm
        · exact List.mem_cons.mpr (Or.inl (hmemNew c' h' o' hm).1)
        · exact List.mem_cons.mpr (Or.inr (h6 c' h' o' hm))
      · intro c1 c2 h' o1 o2 hm1 hm2
        rcases List.mem_append.mp hm1 with hn1 | ho1 <;>
          rcases List.mem_append.mp hm2 with hn2 | ho2
        · rw [(hmemNew c1 h' o1 hn1).2, (hmemNew c2 h' o2 hn2).2]
        · exfalso
          have hh1 : h' = hd := (hmemNew c1 h' o1 hn1).1
          exact hnotc (hh1 ▸ h6 c2 h' o2 ho2)
        · exfalso
          have hh2 : h' = hd := (hmemNew c2 h' o2 hn2).1
          exact hnotc (hh2 ▸ h6 c1 h' o1 ho1)
        · exact h7 c1 c2 h' o1 o2 ho1 ho2

theorem inv_run (tr : List Ev) : Inv (run tr) := by
  rw [run]
  suffices haux : ∀ (t : List Ev) (s : State), Inv s → Inv (t.foldl step s) by
    exact haux tr init inv_init
  intro t
  induction t with
  | nil => intro s h; exact h
  | cons e rest ih =>
    intro s h
    rw [List.foldl_cons]
    exact ih _ (inv_step s e h)

end CabaClima.SF

/-! ## Aggregator and bucket lemmas -/

namespace CabaClima

theorem actualizado_data (hhmm : String) :
    (actualizado hhmm).data
      = ['A','c','t','u','a','l','i','z','a','d','o',' '] ++ (hhmm.data ++ ['.']) := by
  show ("Actualizado " ++ hhmm ++ ".").data = _
  rw [String.data_append, String.data_append]
  rfl

theorem actualizado_ne_empty (hhmm : String) : actualizado hhmm ≠ "" := by
  intro hcon
  have hd := congrArg String.data hcon
  rw [actualizado_data] at hd
  simp at hd

theorem pickMostFrequent_none_iff (arr : List JsVal) :
    pickMostFrequent arr = none ↔ ∀ v ∈ arr, toFinite v = none := by
  rw [pickMostFrequent]
  constructor
  · intro h
    have hpb : pickBest (buildFreq arr) = none := by
      cases hp : pickBest (buildFreq arr) with
      | none => rfl
      | some e => rw [hp] at h; simp at h
    have hbf : buildFreq arr = [] := (pickBest_none_iff _).mp hpb
    rw [buildFreq_eq_foldl, freq_formula] at hbf
    have hfs : firstSeen (arr.filterMap toFinite) = [] := List.map_eq_nil_iff.mp hbf
    have hvals : arr.filterMap toFinite = [] := by
      cases hv : arr.filterMap toFinite with
      | nil => rfl
      | cons a t =>
        exfalso
        have ham : a ∈ firstSeen (arr.filterMap toFinite) :=
          firstSeen_mem.mpr (by rw [hv]; exact List.mem_cons_self a t)
        rw [hfs] at ham
        exact absurd ham (by simp)
    exact fun v hv => List.filterMap_eq_nil_iff.mp hvals v hv
  · intro h
    have hvals : arr.filterMap toFinite = [] := List.filterMap_eq_nil_iff.mpr h
    rw [buildFreq_eq_foldl, hvals]
    rfl

theorem minMaxRounded_none_iff (arr : List JsVal) :
    minMaxRounded arr = none ↔ ∀ v ∈ arr, toFinite v = none := by
  rw [← List.filterMap_eq_nil_iff (f := toFinite)]
  cases hv : arr.filterMap toFinite with
  | nil => simp [minMaxRounded, hv]
  | cons n rest => simp [minMaxRounded, hv]

theorem avgRounded_none_iff (arr : List JsVal) :
    avgRounded arr = none ↔ ∀ v ∈ arr, toFinite v = none := by
  rw [← List.filterMap_eq_nil_iff (f := toFinite)]
  cases hv : arr.filterMap toFinite with
  | nil => simp [avgRounded, hv]
  | cons n rest => simp [avgRounded, hv]

theorem collectIdx_mem_iff (fromISO : String → Option LocalDT) (target : String)
    (time : List String) (p : DayPart) (i : Nat) :
    i ∈ collectIdx fromISO target time p
      ↔ i < time.length ∧ ∃ dt, fromISO (time.getD i "") = some dt
          ∧ dt.dateISO = target ∧ p.«from» ≤ dt.hour.val ∧ dt.hour.val < p.«to» := by
  rw [collectIdx, List.mem_filter, List.mem_range]
  constructor
  · rintro ⟨hlt, hcond⟩
    refine ⟨hlt, ?_⟩
    cases hf : fromISO (time.getD i "") with
    | none => rw [hf] at hcond; simp at hcond
    | some dt =>
      rw [hf] at hcond
      exact ⟨dt, rfl, of_decide_eq_true hcond⟩
  · rintro ⟨hlt, dt, hf, hcond⟩
    refine ⟨hlt, ?_⟩
    rw [hf]
    exact decide_eq_true hcond

/-! ## Claim theorems -/

/-- C4 — Most-frequent weather-code aggregation with first-seen tie-break:
for every list of codes (in traversal order), a selected code is a collected
finite value of maximal frequency, and among codes of equal maximal
frequency the first-encountered one wins (its first occurrence is no later);
in particular `[61,61,63]` yields `61` and the full tie `[1,2]` yields `1`. -/
theorem cabaC4 :
    (∀ (arr : List JsVal) (c : Rat), pickMostFrequent arr = some c →
      c ∈ arr.filterMap toFinite
      ∧ (∀ d ∈ arr.filterMap toFinite,
          (arr.filterMap toFinite).count d ≤ (arr.filterMap toFinite).count c)
      ∧ (∀ d ∈ arr.filterMap toFinite,
          (arr.filterMap toFinite).count d = (arr.filterMap toFinite).count c →
            (arr.filterMap toFinite).indexOf c ≤ (arr.filterMap toFinite).indexOf d))
    ∧ pickMostFrequent [JsVal.num 61, JsVal.num 61, JsVal.num 63] = some 61
    ∧ pickMostFrequent [JsVal.num 1, JsVal.num 2] = some 1 :=
  ⟨fun arr _ h => pickMostFrequent_spec arr h, by decide, by decide⟩

/-- Witness for C4 at the concrete input `[61,61,63]`. -/
theorem cabaC4_witness :
    (61 : Rat) ∈ [JsVal.num 61, JsVal.num 61, JsVal.num 63].filterMap toFinite
    ∧ ∀ d ∈ [JsVal.num 61, JsVal.num 61, JsVal.num 63].filterMap toFinite,
        ([JsVal.num 61, JsVal.num 61, JsVal.num 63].filterMap toFinite).count d
          ≤ ([JsVal.num 61, JsVal.num 61, JsVal.num 63].filterMap toFinite).count 61 := by
  have h := cabaC4.1 [JsVal.num 61, JsVal.num 61, JsVal.num 63] 61 (by decide)
  exact ⟨h.1, h.2.1⟩

/-- C10 — Aggregation is total over malformed data: the three aggregators
return `null` (never fail) exactly when no finite value remains after the
`Number`/`isFinite` filter; records whose timestamp does not parse are
collected into no bucket; an out-of-range index produces `undefined`
(`nonFinite`), which converts to no finite value and is therefore excluded
from every aggregate.  (Totality of segment building itself holds by
construction: every modelled function is total.) -/
theorem cabaC10 :
    (∀ arr : List JsVal, pickMostFrequent arr = none ↔ ∀ v ∈ arr, toFinite v = none)
    ∧ (∀ arr : List JsVal, minMaxRounded arr = none ↔ ∀ v ∈ arr, toFinite v = none)
    ∧ (∀ arr : List JsVal, avgRounded arr = none ↔ ∀ v ∈ arr, toFinite v = none)
    ∧ (∀ (fromISO : String → Option LocalDT) (target : String) (time : List String)
        (p : DayPart) (i : Nat), fromISO (time.getD i "") = none →
          i ∉ collectIdx fromISO target time p)
    ∧ (∀ (arr : List JsVal) (i : Nat), arr.length ≤ i → arr.getD i .nonFinite = .nonFinite)
    ∧ toFinite .nonFinite = none := by
  refine ⟨pickMostFrequent_none_iff, minMaxRounded_none_iff, avgRounded_none_iff,
    ?_, ?_, rfl⟩
  · intro fromISO target time p i hparse hmem
    obtain ⟨_, dt, hdt, _⟩ := (collectIdx_mem_iff fromISO target time p i).mp hmem
    rw [hparse] at hdt
    exact Option.noConfusion hdt
  · intro arr i hle
    exact List.getD_eq_default arr .nonFinite hle

/-- Witness for C10: an unparsable timestamp is skipped, and an
all-non-finite column yields `null` aggregates. -/
theorem cabaC10_witness :
    (0 : Nat) ∉ collectIdx fromISOBA "2024-05-15" ["2024-15-05"] ⟨"madrugada", 0, 6⟩
    ∧ (minMaxRounded [JsVal.nonFinite] = none
        ↔ ∀ v ∈ [JsVal.nonFinite], toFinite v = none) := by
  refine ⟨?_, cabaC10.2.1 [JsVal.nonFinite]⟩
  exact cabaC10.2.2.2.1 fromISOBA "2024-05-15" ["2024-15-05"] ⟨"madrugada", 0, 6⟩ 0 (by decide)

/-- C5 — DayPart partition: the four fixed windows cover every local hour
exactly once, the bucket-collection loop collects index `i` into part `p`
exactly when `i` is in range, its timestamp parses to the target local date
and its hour lies in `p`'s half-open window — hence every record with a
valid timestamp on the target date lands in exactly one of the four
buckets (no double-count, no omission). -/
theorem cabaC5 :
    (∀ h : Fin 24,
      dayParts.countP (fun p => decide (p.«from» ≤ h.val ∧ h.val < p.«to»)) = 1)
    ∧ (∀ (fromISO : String → Option LocalDT) (target : String) (time : List String)
        (p : DayPart) (i : Nat),
        i ∈ collectIdx fromISO target time p
          ↔ i < time.length ∧ ∃ dt, fromISO (time.getD i "") = some dt
              ∧ dt.dateISO = target ∧ p.«from» ≤ dt.hour.val ∧ dt.hour.val < p.«to»)
    ∧ (∀ (fromISO : String → Option LocalDT) (target : String) (time : List String)
        (i : Nat) (dt : LocalDT), i < time.length →
        fromISO (time.getD i "") = some dt → dt.dateISO = target →
        dayParts.countP (fun p => decide (i ∈ collectIdx fromISO target time p)) = 1) := by
  have hwin : ∀ h : Fin 24,
      dayParts.countP (fun p => decide (p.«from» ≤ h.val ∧ h.val < p.«to»)) = 1 := by
    decide
  refine ⟨hwin, fun f t tm p i => collectIdx_mem_iff f t tm p i, ?_⟩
  intro fromISO target time i dt hlt hparse hdate
  have hcong : dayParts.countP (fun p => decide (i ∈ collectIdx fromISO target time p))
      = dayParts.countP (fun p => decide (p.«from» ≤ dt.hour.val ∧ dt.hour.val < p.«to»)) := by
    refine List.countP_congr ?_
    intro p _
    rw [decide_eq_true_iff, decide_eq_true_iff]
    rw [collectIdx_mem_iff]
    constructor
    · rintro ⟨_, dt', hdt', _, hcond⟩
      rw [hparse] at hdt'
      rcases Option.some.inj hdt' with rfl
      exact hcond
    · intro hcond
      exact ⟨hlt, dt, hparse, hdate, hcond⟩
  rw [hcong]
  exact hwin dt.hour

/-- Witness for C5: a 7 a.m. record on the target date is counted by
exactly one bucket. -/
theorem cabaC5_witness :
    dayParts.countP
      (fun p => decide (0 ∈ collectIdx fromISOBA "2024-05-15" ["2024-05-15T07:00"] p)) = 1 :=
  cabaC5.2.2 fromISOBA "2024-05-15" ["2024-05-15T07:00"] 0 ⟨"2024-05-15", ⟨7, by omega⟩⟩
    (by decide) (by decide) rfl

/-- C6 (amended) — Current-day filtering in `src/app.js`: the unique part
containing the current local hour is `currentPartKey`; on day 0 a segment is
kept iff its part starts no earlier than the current part (i.e. excluded
iff its window lies strictly earlier); later days (`d ≠ 0`) pass through
unfiltered; and a segment is flagged as the current moment iff `d = 0` and
its key equals the current part key.  (The unnamed variant applies no
current-day filtering at all — see the counterexample.) -/
theorem cabaC6 :
    (∀ (h : Fin 24) (p : DayPart), p ∈ dayParts →
      ((p.«from» ≤ h.val ∧ h.val < p.«to») ↔ p.key = currentPartKey h))
    ∧ (∀ (h : Fin 24) (segs : List App.Segment) (s : App.Segment),
        s ∈ App.filterForDay 0 (currentPartKey h) segs
          ↔ s ∈ segs ∧ App.partFromOfKey (currentPartKey h) ≤ App.partFromOfKey s.key)
    ∧ (∀ (d : Nat) (nk : String) (segs : List App.Segment), d ≠ 0 →
        App.filterForDay d nk segs = segs)
    ∧ (∀ (d : Nat) (k nk : String), App.isActual d k nk = true ↔ d = 0 ∧ k = nk) := by
  refine ⟨by decide, ?_, ?_, ?_⟩
  · intro h segs s
    rw [App.filterForDay, if_pos rfl, List.mem_filter]
    constructor
    · rintro ⟨hm, hc⟩
      exact ⟨hm, of_decide_eq_true hc⟩
    · rintro ⟨hm, hc⟩
      exact ⟨hm, decide_eq_true hc⟩
  · intro d nk segs hd
    rw [App.filterForDay, if_neg hd]
  · intro d k nk
    rw [App.isActual]
    rw [Bool.and_eq_true, beq_iff_eq, beq_iff_eq]

/-- Witness for C6: at 13:00 the current part is `tarde`, and a `tarde`
segment passes the day-0 filter. -/
theorem cabaC6_witness :
    (⟨"tarde", "lluvia", none⟩ : App.Segment)
      ∈ App.filterForDay 0 (currentPartKey (13 : Fin 24))
          [⟨"madrugada", "lluvia", none⟩, ⟨"tarde", "lluvia", none⟩] :=
  (cabaC6.2.1 (13 : Fin 24) [⟨"madrugada", "lluvia", none⟩, ⟨"tarde", "lluvia", none⟩]
    ⟨"tarde", "lluvia", none⟩).mpr ⟨by decide, by decide⟩

/-- Counterexample for C6 as stated: in the unnamed variant the rendering
pipeline takes no current-hour input and filters nothing — with records
only in the madrugada window and the current moment at 20:00 (part
`noche`), the current day's output still contains the madrugada segment,
whose window lies strictly earlier; nothing is flagged. -/
theorem cabaC6_counterexample :
    currentPartKey (20 : Fin 24) = "noche"
    ∧ App.partFromOfKey "madrugada" < App.partFromOfKey "noche"
    ∧ (P0.buildSegmentsForDay fromISOBA "2024-05-15" ["2024-05-15T01:00"]
        [JsVal.num 61] [JsVal.num 10] [JsVal.num 80]).map (fun s => s.key)
        = ["madrugada", "mañana", "tarde", "noche"]
    ∧ P0.formatDayLine "Hoy"
        (P0.buildSegmentsForDay fromISOBA "2024-05-15" ["2024-05-15T01:00"]
          [JsVal.num 61] [JsVal.num 10] [JsVal.num 80])
      = "Hoy. madrugada: lluvia. Entre 10 y 10 grados. Humedad 80 por ciento. mañana: cielo despejado. tarde: cielo despejado. noche: cielo despejado." := by
  refine ⟨rfl, by decide, by decide, by decide⟩

/-- C7 (amended) — Empty-segment omission in `src/app.js`: a rendered
segment never has both an empty description and no temperature range, and a
(day, part) bucket whose description resolves empty and whose temperature
range is `null` contributes no segment at all.  (In the unnamed variant the
bucket is still rendered when a humidity average exists — see the
counterexample.) -/
theorem cabaC7 :
    (∀ (fromISO : String → Option LocalDT) (target : String) (time : List String)
        (hCode hTemp : List JsVal) (s : App.Segment),
      s ∈ App.buildSegmentsForDay fromISO target time hCode hTemp →
        ¬(s.desc = "" ∧ s.mm = none))
    ∧ (∀ (fromISO : String → Option LocalDT) (target : String) (time : List String)
        (hCode hTemp : List JsVal) (p : DayPart), p ∈ dayParts →
        weatherCodeToSpanish (pickMostFrequent (bucketVals fromISO target time hCode p)) = "" →
        minMaxRounded (bucketVals fromISO target time hTemp p) = none →
        ∀ s ∈ App.buildSegmentsForDay fromISO target time hCode hTemp, s.key ≠ p.key) := by
  constructor
  · intro fromISO target time hCode hTemp s hs
    rw [App.buildSegmentsForDay, List.mem_filterMap] at hs
    obtain ⟨p, _, hp⟩ := hs
    by_cases hcond : weatherCodeToSpanish
        (pickMostFrequent (bucketVals fromISO target time hCode p)) = ""
        ∧ minMaxRounded (bucketVals fromISO target time hTemp p) = none
    · rw [if_pos hcond] at hp
      exact Option.noConfusion hp
    · rw [if_neg hcond] at hp
      rcases Option.some.inj hp with rfl
      exact hcond
  · intro fromISO target time hCode hTemp p hpmem hdesc hmm s hs hkey
    rw [App.buildSegmentsForDay, List.mem_filterMap] at hs
    obtain ⟨q, hqmem, hq⟩ := hs
    by_cases hcond : weatherCodeToSpanish
        (pickMostFrequent (bucketVals fromISO target time hCode q)) = ""
        ∧ minMaxRounded (bucketVals fromISO target time hTemp q) = none
    · rw [if_pos hcond] at hq
      exact Option.noConfusion hq
    · rw [if_neg hcond] at hq
      rcases Option.some.inj hq with rfl
      have hqp : q = p := by
        have hkeys : ∀ q ∈ dayParts, ∀ p ∈ dayParts, q.key = p.key → q = p := by decide
        exact hkeys q hqmem p hpmem hkey
      rw [hqp] at hcond
      exact hcond ⟨hdesc, hmm⟩

/-- Witness for C7: a bucket with code 61 and temperature 10 yields a
segment with a non-empty description or a range (here both). -/
theorem cabaC7_witness :
    ¬((⟨"madrugada", "lluvia", some (10, 10)⟩ : App.Segment).desc = ""
      ∧ (⟨"madrugada", "lluvia", some (10, 10)⟩ : App.Segment).mm = none) :=
  cabaC7.1 fromISOBA "2024-05-15" ["2024-05-15T01:00"] [JsVal.num 61] [JsVal.num 10]
    ⟨"madrugada", "lluvia", some (10, 10)⟩ (by decide)

/-- Counterexample for C7 as stated: in the unnamed variant, a bucket with
an unmapped weather code (42 → empty description) and no finite temperature
still produces a rendered segment when a humidity average exists. -/
theorem cabaC7_counterexample :
    ∃ s ∈ P0.buildSegmentsForDay fromISOBA "2024-05-15" ["2024-05-15T01:00"]
        [JsVal.num 42] [JsVal.nonFinite] [JsVal.num 50],
      s.desc = "" ∧ s.mm = none ∧ s.hum = some 50 := by
  decide

/-- C9 — Text sanitization: for every input (including null/undefined,
modelled as `none`), the `safeText` result has no two adjacent whitespace
characters, every whitespace character in it is a single space, it is
trimmed at both ends, and its length is at most 240; every `Say` text of
the rendered payload is `safeText` of some input line, the degraded payload
of `src/app.js` goes through the very same `buildXmlFromSayLines`, and the
variant's `buildXml` is exactly `safeText`. -/
theorem cabaC9 :
    (∀ input : Option String,
      List.Chain' noWsPair (safeText input).data
      ∧ (∀ c ∈ (safeText input).data, isWs c = true → c = ' ')
      ∧ (safeText input).data.length ≤ 240
      ∧ (∀ c, (safeText input).data.head? = some c → isWs c = false)
      ∧ (∀ c, (safeText input).data.getLast? = some c → isWs c = false))
    ∧ (∀ (lines : List String) (t : String),
        t ∈ App.buildXmlFromSayLines lines → ∃ l ∈ lines, t = safeText (some l))
    ∧ (∀ (hhmm : String) (now : Int) (st : App.CacheEntry),
        App.ensureDegradedXmlIfEmpty hhmm now st = st
        ∨ (App.ensureDegradedXmlIfEmpty hhmm now st).xml
            = some (App.buildXmlFromSayLines (App.degradedLines hhmm)))
    ∧ (∀ text : String, P0.buildXml text = safeText (some text)) := by
  refine ⟨?_, ?_, ?_, fun _ => rfl⟩
  · intro input
    exact sanitize_spec (input.getD "").data
  · intro lines t ht
    rw [App.buildXmlFromSayLines, List.mem_filterMap] at ht
    obtain ⟨l, hl, hfl⟩ := ht
    by_cases hc : safeText (some l) = ""
    · rw [if_pos hc] at hfl
      exact Option.noConfusion hfl
    · rw [if_neg hc] at hfl
      exact ⟨l, hl, (Option.some.inj hfl).symm⟩
  · intro hhmm now st
    rw [App.ensureDegradedXmlIfEmpty]
    by_cases hu : App.usable st
    · rw [if_pos hu]
      exact Or.inl rfl
    · rw [if_neg hu]
      exact Or.inr rfl

/-- Witness for C9: a concrete line's sanitized form appears in the payload. -/
theorem cabaC9_witness :
    ∃ l ∈ ["  hola   que\ttal  "], "hola que tal" = safeText (some l) :=
  cabaC9.2.1 ["  hola   que\ttal  "] "hola que tal" (by decide)

/-- C3 (amended) — Degraded-entry synthesis in `src/app.js`: a failed
refresh leaves a usable (non-degraded) entry unchanged; when no usable
entry exists it stores a degraded entry carrying the unavailability marker
line and the `Actualizado` timestamp line; the forced-refresh route applies
this fallback and still reports the failure (status 502 with the original
error).  In the unnamed variant `ensureDegradedXml` overwrites the entry
unconditionally — see the counterexample. -/
theorem cabaC3 :
    (∀ (hhmm : String) (now : Int) (st : App.CacheEntry), App.usable st →
      App.ensureDegradedXmlIfEmpty hhmm now st = st)
    ∧ (∀ (hhmm : String) (now : Int) (st : App.CacheEntry), ¬App.usable st →
        GoodStamp hhmm →
        App.ensureDegradedXmlIfEmpty hhmm now st
          = ⟨some ["Capital Federal.", "Clima no disponible por el momento.",
              actualizado hhmm], some now, true⟩)
    ∧ (∀ (hhmm : String) (now : Int) (st : App.CacheEntry) (errMsg : String),
        App.postUpdate hhmm now st .err errMsg
          = (App.ensureDegradedXmlIfEmpty hhmm now st,
             App.UpdateResponse.errStatus502 errMsg))
    ∧ (∀ (hhmm : String) (now : Int) (st : P0.CacheEntry),
        (P0.ensureDegradedXml hhmm now st).xml
          = some (P0.buildXml
              ("Clima para Capital Federal no disponible por el momento. Actualizado "
                ++ hhmm ++ "."))) := by
  refine ⟨?_, ?_, fun _ _ _ _ => rfl, fun _ _ _ => rfl⟩
  · intro hhmm now st hu
    rw [App.ensureDegradedXmlIfEmpty, if_pos hu]
  · intro hhmm now st hnu hgs
    rw [App.ensureDegradedXmlIfEmpty, if_neg hnu]
    have e1 : safeText (some "Capital Federal.") = "Capital Federal." := by decide
    have ne1 : ¬("Capital Federal." = "") := by decide
    have e2 : safeText (some "Clima no disponible por el momento.")
        = "Clima no disponible por el momento." := by decide
    have ne2 : ¬("Clima no disponible por el momento." = "") := by decide
    have e3 : safeText (some (actualizado hhmm)) = actualizado hhmm :=
      safeText_actualizado hgs
    have ne3 : ¬(actualizado hhmm = "") := actualizado_ne_empty hhmm
    have hlines : App.degradedLines hhmm
        = ["Capital Federal.", "Clima no disponible por el momento.", actualizado hhmm] := rfl
    rw [hlines]
    simp only [App.buildXmlFromSayLines, List.filterMap_cons, List.filterMap_nil,
      e1, e2, e3, ne1, ne2, ne3, if_false]

/-- Witness for C3: a usable entry survives a failed refresh untouched, and
with no usable entry the degraded entry is stored. -/
theorem cabaC3_witness :
    App.ensureDegradedXmlIfEmpty "12:00" 5 ⟨some ["x"], some 1, false⟩
      = ⟨some ["x"], some 1, false⟩
    ∧ App.ensureDegradedXmlIfEmpty "12:00" 5 App.initialWeather
      = ⟨some ["Capital Federal.", "Clima no disponible por el momento.",
          actualizado "12:00"], some 5, true⟩ :=
  ⟨cabaC3.1 "12:00" 5 ⟨some ["x"], some 1, false⟩ (by constructor <;> rfl),
   cabaC3.2.1 "12:00" 5 App.initialWeather (by decide) (by decide)⟩

set_option maxRecDepth 4000 in
/-- Counterexample for C3 as stated: in the unnamed variant a failed
refresh does NOT leave an existing usable entry unchanged —
`ensureDegradedXml` overwrites even an entry produced by the variant's own
success path. -/
theorem cabaC3_counterexample :
    P0.ensureDegradedXml "12:00" 200 p0SuccessEntry ≠ p0SuccessEntry
    ∧ p0SuccessEntry.xml.isSome = true := by
  refine ⟨?_, by decide⟩
  decide

/-- C8 (amended) — In `src/app.js`, where every line is sanitized
individually, the rendered payload (normal or degraded) always ends with
the `Say` line `"Actualizado HH:MM."` carrying the wall-clock time (no
source timestamp is ever resolved in this program, so the wall-clock branch
always applies).  In the unnamed variant the whole text is sanitized as ONE
string, and the 240-character truncation can cut the trailing `Actualizado`
line off — see the counterexample. -/
theorem cabaC8 :
    (∀ (fromISO : String → Option LocalDT) (wdName : Nat → String)
        (dates : Nat → String) (nowHour : Fin 24) (hhmm : String)
        (hTime : List String) (hCode hTemp : List JsVal),
      GoodStamp hhmm →
        (App.refreshPayload fromISO wdName dates nowHour hhmm hTime hCode hTemp).getLast?
          = some (actualizado hhmm))
    ∧ (∀ (hhmm : String) (now : Int) (st : App.CacheEntry), ¬App.usable st →
        GoodStamp hhmm →
        ((App.ensureDegradedXmlIfEmpty hhmm now st).xml.getD []).getLast?
          = some (actualizado hhmm)) := by
  have hbase : ∀ (pre : List String) (hhmm : String), GoodStamp hhmm →
      (App.buildXmlFromSayLines (pre ++ [actualizado hhmm])).getLast?
        = some (actualizado hhmm) := by
    intro pre hhmm hgs
    rw [App.buildXmlFromSayLines, List.filterMap_append]
    have hlast : List.filterMap (fun line =>
        let t := safeText (some line)
        if t = "" then none else some t) [actualizado hhmm] = [actualizado hhmm] := by
      rw [List.filterMap_cons, List.filterMap_nil]
      simp only [safeText_actualizado hgs, actualizado_ne_empty hhmm, if_false]
    rw [hlast, List.getLast?_concat]
  constructor
  · intro fromISO wdName dates nowHour hhmm hTime hCode hTemp hgs
    have hshape : App.refreshLines fromISO wdName dates nowHour hhmm hTime hCode hTemp
        = ("Capital Federal." ::
            ((List.range 3).map (fun d =>
              App.dayBlock fromISO wdName (dates d) (currentPartKey nowHour)
                hTime hCode hTemp d)).flatten)
          ++ [actualizado hhmm] := by
      rw [App.refreshLines]
      simp [actualizado]
    rw [App.refreshPayload, hshape]
    exact hbase _ hhmm hgs
  · intro hhmm now st hnu hgs
    rw [App.ensureDegradedXmlIfEmpty, if_neg hnu]
    have hshape : App.degradedLines hhmm
        = ["Capital Federal.", "Clima no disponible por el momento."]
          ++ [actualizado hhmm] := rfl
    rw [hshape]
    show (App.buildXmlFromSayLines _).getLast? = _
    exact hbase _ hhmm hgs

/-- Witness for C8 at concrete inputs (empty upstream payload). -/
theorem cabaC8_witness :
    (App.refreshPayload fromISOBA (fun _ => "miércoles") sampleDates (20 : Fin 24)
        "12:00" [] [] []).getLast? = some (actualizado "12:00") :=
  cabaC8.1 fromISOBA (fun _ => "miércoles") sampleDates (20 : Fin 24) "12:00" [] [] []
    (by decide)

set_option maxRecDepth 4000 in
/-- Counterexample for C8 as stated: in the unnamed variant, with an empty
upstream payload (every bucket still renders `cielo despejado`), the
assembled text does end with `"Actualizado 12:00."`, but the single-`Say`
payload goes through the 240-character truncation as a whole and the
rendered payload does not — its last character is `'m'`, not the closing
period of an `Actualizado HH:MM.` line. -/
theorem cabaC8_counterexample :
    endsWithL (P0.refreshText fromISOBA sampleDates "12:00" [] [] [] []).data
        (actualizado "12:00").data = true
    ∧ endsWithL (P0.buildXml (P0.refreshText fromISOBA sampleDates "12:00" [] [] [] [])).data
        (actualizado "12:00").data = false
    ∧ (P0.buildXml (P0.refreshText fromISOBA sampleDates "12:00" [] [] [] [])).data.getLast?
        = some 'm' := by
  refine ⟨by decide, by decide, by decide⟩

theorem shouldRefresh_false_isSome (st : App.CacheEntry) (now : Int)
    (h : App.shouldRefresh st now = false) : st.xml.isSome = true := by
  obtain ⟨xml, ts, deg⟩ := st
  cases xml with
  | none => simp [App.shouldRefresh] at h
  | some p => rfl

theorem p0_shouldRefresh_false_isSome (st : P0.CacheEntry) (now : Int)
    (h : P0.shouldRefresh st now = false) : st.xml.isSome = true := by
  obtain ⟨xml, ts⟩ := st
  cases xml with
  | none => simp [P0.shouldRefresh] at h
  | some p => rfl

/-- C2 — The read path never propagates failure: `shouldRefresh` holds
exactly when no payload is cached or the entry's age exceeds the 65-minute
TTL (under the structural invariant that a cached payload always carries
its positive `Date.now()` store stamp); the voice handler's response is
always a non-null payload, for every refresh outcome including failure; the
response is exactly the post-read cache entry's payload; and a fresh entry
triggers no refresh at all.  The same non-null guarantee holds in the
unnamed variant. -/
theorem cabaC2 :
    (∀ (st : App.CacheEntry) (now : Int),
      (∀ p, st.xml = some p → ∃ t, st.timestamp = some t ∧ 0 < t) →
      (App.shouldRefresh st now = true
        ↔ st.xml = none
          ∨ ∃ t, st.timestamp = some t ∧ App.CACHE_MAX_MINUTES * 60000 < now - t))
    ∧ (∀ (hhmm : String) (now : Int) (st : App.CacheEntry) (o : App.RefreshOutcome),
        ((App.readVoice hhmm now st o).2).isSome = true)
    ∧ (∀ (hhmm : String) (now : Int) (st : App.CacheEntry) (o : App.RefreshOutcome),
        (App.readVoice hhmm now st o).2 = ((App.readVoice hhmm now st o).1).xml)
    ∧ (∀ (hhmm : String) (now : Int) (st : App.CacheEntry) (o : App.RefreshOutcome),
        App.shouldRefresh st now = false → App.readVoice hhmm now st o = (st, st.xml))
    ∧ (∀ (hhmm : String) (now : Int) (st : P0.CacheEntry) (o : P0.RefreshOutcome),
        ((P0.readVoice hhmm now st o).2).isSome = true) := by
  refine ⟨?_, ?_, ?_, ?_, ?_⟩
  · intro st now hinv
    obtain ⟨xml, ts, deg⟩ := st
    cases xml with
    | none =>
      simp only [App.shouldRefresh]
      simp
    | some p =>
      obtain ⟨t, hts, ht⟩ := hinv p rfl
      simp only at hts
      subst hts
      simp only [App.shouldRefresh]
      rw [if_neg (by omega : ¬(t = 0))]
      constructor
      · intro hdec
        exact Or.inr ⟨t, rfl, of_decide_eq_true hdec⟩
      · rintro (hcon | ⟨t', ht', hlt⟩)
        · exact Option.noConfusion hcon
        · simp only [Option.some.injEq] at ht'
          subst ht'
          exact decide_eq_true hlt
  · intro hhmm now st o
    rw [App.readVoice]
    by_cases hs : App.shouldRefresh st now = true
    · simp only [hs, if_true]
      cases o with
      | ok p ts => rfl
      | err =>
        show (App.ensureDegradedXmlIfEmpty hhmm now st).xml.isSome = true
        rw [App.ensureDegradedXmlIfEmpty]
        by_cases hu : App.usable st
        · rw [if_pos hu]; exact hu.1
        · rw [if_neg hu]; rfl
    · have hs' : App.shouldRefresh st now = false := by
        revert hs; cases App.shouldRefresh st now <;> simp
      rw [hs']
      simp only [Bool.false_eq_true, if_false]
      exact shouldRefresh_false_isSome st now hs'
  · intro hhmm now st o
    rfl
  · intro hhmm now st o hs
    rw [App.readVoice, hs]
    simp only [Bool.false_eq_true, if_false]
  · intro hhmm now st o
    rw [P0.readVoice.eq_def]
    by_cases hs : P0.shouldRefresh st now = true
    · simp only [hs, if_true]
      cases o with
      | ok p ts => rfl
      | err => rfl
    · have hs' : P0.shouldRefresh st now = false := by
        revert hs; cases P0.shouldRefresh st now <;> simp
      rw [hs']
      simp only [Bool.false_eq_true, if_false]
      exact p0_shouldRefresh_false_isSome st now hs'

/-- Witness for C2: a one-hour-and-six-minutes-old entry is stale and
triggers a refresh; the read response on a failed refresh is still a
payload. -/
theorem cabaC2_witness :
    App.shouldRefresh ⟨some ["ok"], some 1, false⟩ 4000000 = true
    ∧ ((App.readVoice "12:00" 4000000 ⟨some ["ok"], some 1, false⟩ .err).2).isSome = true :=
  ⟨(cabaC2.1 ⟨some ["ok"], some 1, false⟩ 4000000
      (fun p _ => ⟨1, rfl, by omega⟩)).mpr (Or.inr ⟨1, rfl, by decide⟩),
   cabaC2.2.1 "12:00" 4000000 ⟨some ["ok"], some 1, false⟩ .err⟩

/-- C1 — Single-flight refresh, over the event-loop model of
`refreshWithLock`: a trigger arriving while attempt `h` is in flight
attaches the caller to that same handle and starts no new pipeline; a
completion clears the handle (whatever the outcome); every caller attached
to the in-flight attempt observes the completed attempt's outcome; along
every trace the number of started pipelines equals the number of cleared
handles plus at most one outstanding (so exactly one pipeline runs at a
time); each handle is cleared exactly once; and any two observations of
the same attempt carry the same outcome. -/
theorem cabaC1 :
    (∀ (s : SF.State) (c h : Nat), s.inflight = some h →
      (SF.step s (.trigger c)).inflight = some h
      ∧ (SF.step s (.trigger c)).started = s.started
      ∧ (c, h) ∈ (SF.step s (.trigger c)).waiters)
    ∧ (∀ (s : SF.State) (o : SF.Outcome) (h : Nat), s.inflight = some h →
        (SF.step s (.complete o)).inflight = none)
    ∧ (∀ (s : SF.State) (o : SF.Outcome) (c h : Nat), s.inflight = some h →
        (c, h) ∈ s.waiters → (c, h, o) ∈ (SF.step s (.complete o)).observed)
    ∧ (∀ tr : List SF.Ev, (SF.run tr).started
        = (SF.run tr).completedIds.length
          + (if (SF.run tr).inflight.isSome then 1 else 0))
    ∧ (∀ tr : List SF.Ev, (SF.run tr).completedIds.Nodup)
    ∧ (∀ (tr : List SF.Ev) (c1 c2 h : Nat) (o1 o2 : SF.Outcome),
        (c1, h, o1) ∈ (SF.run tr).observed → (c2, h, o2) ∈ (SF.run tr).observed →
          o1 = o2) := by
  refine ⟨?_, ?_, ?_, ?_, ?_, ?_⟩
  · intro s c h hin
    rw [show SF.step s (.trigger c) = { s with waiters := (c, h) :: s.waiters } from by
      simp [SF.step, hin]]
    exact ⟨hin, rfl, List.mem_cons_self _ _⟩
  · intro s o h hin
    simp [SF.step, hin]
  · intro s o c h hin hw
    rw [show SF.step s (.complete o)
        = { s with
            inflight := none,
            completedIds := h :: s.completedIds,
            observed := (s.waiters.filter (fun w => w.2 == h)).map
              (fun w => (w.1, h, o)) ++ s.observed,
            waiters := s.waiters.filter (fun w => w.2 != h) } from by
      simp [SF.step, hin]]
    refine List.mem_append.mpr (Or.inl ?_)
    exact List.mem_map.mpr ⟨(c, h), List.mem_filter.mpr ⟨hw, by simp⟩, rfl⟩
  · intro tr
    exact (SF.inv_run tr).1
  · intro tr
    exact (SF.inv_run tr).2.1
  · intro tr c1 c2 h o1 o2 h1 h2
    exact (SF.inv_run tr).2.2.2.2.2.2 c1 c2 h o1 o2 h1 h2

/-- Witness for C1: a second trigger arriving while attempt 0 is in flight
attaches to attempt 0 and starts nothing new. -/
theorem cabaC1_witness :
    (SF.step (SF.run [SF.Ev.trigger 0]) (SF.Ev.trigger 1)).inflight = some 0
    ∧ (SF.step (SF.run [SF.Ev.trigger 0]) (SF.Ev.trigger 1)).started
        = (SF.run [SF.Ev.trigger 0]).started
    ∧ (1, 0) ∈ (SF.step (SF.run [SF.Ev.trigger 0]) (SF.Ev.trigger 1)).waiters :=
  cabaC1.1 (SF.run [SF.Ev.trigger 0]) 1 0 (by decide)

end CabaClima
